import Mathlib

/-!
Verification development for the coin-weighing solver (`src/coin.c`).

The C program is embedded shallowly:
* a possibility set (C: `int*` terminated by `INT_MAX`) is a `List Int`
  without the terminator;
* coin selections (C: `int*` plus a length) are `List Nat` of 0-based
  coin indices;
* the `coin_cfg` struct keeps its four selection groups as lists (the C
  `size[4]` fields are always the lengths of the `sel[4]` arrays, so the
  lists carry both);
* functions that can call `exit()` are modelled with `Option`, `none`
  standing for the fatal-error exits;
* the recursions of `weigh_sequential` and of the base-solution search in
  `weigh_static` are not structural, so they take an explicit fuel
  argument; theorems below show the fuel does not matter once it is at
  least the possibility-set size.

Integer division: the divisions in `get_nkl` use `Int.tdiv`, the
truncation-towards-zero convention of C.
-/

/-- C enum value `C_EQUAL`. -/
def C_EQUAL : Nat := 0

/-- C enum value `C_MORE`. -/
def C_MORE : Nat := 1

/-- C enum value `C_LESS`. -/
def C_LESS : Nat := 2

/-- C enum value `C_DOUBLE`. -/
def C_DOUBLE : Nat := 3

/-- C `balance`: compare two pan weights. -/
def balance (x y : Int) : Nat :=
  if x < y then C_LESS else if x = y then C_EQUAL else C_MORE

/-- C `new_coins`: the initial possibility set
`{0, 1, ..., n, -1, ..., -n}` (the `INT_MAX` terminator is dropped in the
list embedding). -/
def new_coins (n_coins : Nat) : List Int :=
  0 :: ((List.range n_coins).map (fun (k : Nat) => (k : Int) + 1)
    ++ (List.range n_coins).map (fun (k : Nat) => -((k : Int) + 1)))

/-- C `npos`: size of a possibility set. -/
def npos (poss : List Int) : Nat := poss.length

/-- C `sum`: net weight contribution of the hypothesized fake coin `c`
to a pan holding the selection `s` (1 heavy, -1 light, 0 absent). -/
def sum (c : Int) : List Nat → Int
  | [] => 0
  | x :: s =>
    if 0 < c ∧ c - 1 = (x : Int) then 1
    else if c < 0 ∧ -c - 1 = (x : Int) then -1
    else sum c s

/-- Outcome of one weighing for a single hypothesis: which of the three
result classes (`C_EQUAL`/`C_MORE`/`C_LESS`) the hypothesis `ci` falls
into when `s1` is on the left pan and `s2` on the right pan.  This is the
classification computed inside the loop of C `weigh`. -/
def outcome (s1 s2 : List Nat) (ci : Int) : Nat :=
  balance (sum ci s1) (sum ci s2)

/-- C `weigh`: partition a possibility set into the three outcome sets
`(r[C_EQUAL], r[C_MORE], r[C_LESS])`.  The C code appends each hypothesis
to the array of its outcome class in order, which is exactly a triple of
filters. -/
def weigh (c : List Int) (s1 s2 : List Nat) :
    List Int × List Int × List Int :=
  (c.filter (fun ci => outcome s1 s2 ci = C_EQUAL),
   c.filter (fun ci => outcome s1 s2 ci = C_MORE),
   c.filter (fun ci => outcome s1 s2 ci = C_LESS))

/-- C struct `coin_cfg`.  `all_equal` is the C int flag (0 or 1); the
four C arrays `sel[C_EQUAL..C_DOUBLE]` are the four lists, whose lengths
are the C `size[...]` fields. -/
structure coin_cfg where
  all_equal : Nat
  selE : List Nat
  selM : List Nat
  selL : List Nat
  selD : List Nat
deriving Repr, DecidableEq

/-- Inner loop of C `get_cfg` for one coin index `k`: scan the
possibility set left to right keeping `(hit, type, all_equal-flag)`. -/
def scanCoinAux (k : Nat) : Nat → Nat → Bool → List Int → Nat × Nat × Bool
  | h, t, a, [] => (h, t, a)
  | h, t, a, ci :: rest =>
    if 0 < ci ∧ ci - 1 = (k : Int) then scanCoinAux k (h + 1) C_MORE a rest
    else if ci < 0 ∧ -ci - 1 = (k : Int) then scanCoinAux k (h + 1) C_LESS a rest
    else if ci = 0 then scanCoinAux k h t true rest
    else scanCoinAux k h t a rest

/-- Result of the scan for coin `k` started from the initial state. -/
def scanCoin (c : List Int) (k : Nat) : Nat × Nat × Bool :=
  scanCoinAux k 0 C_EQUAL false c

/-- Classification of coin `k` by C `get_cfg`: the scanned type, turned
into `C_DOUBLE` when the coin was hit twice. -/
def coinType (c : List Int) (k : Nat) : Nat :=
  let r := scanCoin c k
  if r.1 = 2 then C_DOUBLE else r.2.1

/-- Append coin `k` to the selection group `t` of a configuration. -/
def addSel (g : coin_cfg) (t k : Nat) : coin_cfg :=
  if t = C_MORE then { g with selM := g.selM ++ [k] }
  else if t = C_LESS then { g with selL := g.selL ++ [k] }
  else if t = C_DOUBLE then { g with selD := g.selD ++ [k] }
  else { g with selE := g.selE ++ [k] }

/-- C `get_cfg`: classify coins `0..n-1` against the possibility set
`c`, in ascending order (the C loop appends each coin to the list of its
type and raises `all_equal` whenever the hypothesis 0 is seen). -/
def get_cfg (c : List Int) : Nat → coin_cfg
  | 0 => ⟨0, [], [], [], []⟩
  | n + 1 =>
    let g := get_cfg c n
    let r := scanCoin c n
    let g2 := addSel g (if r.1 = 2 then C_DOUBLE else r.2.1) n
    { g2 with all_equal := if r.2.2 then 1 else g2.all_equal }

/-- C `num_pos`: number of hypotheses described by a configuration. -/
def num_pos (cfg : coin_cfg) : Nat :=
  cfg.selL.length + cfg.selM.length + cfg.selD.length * 2 + cfg.all_equal

/-- C `get_nkl`: the closed-form pan counts for a type-B configuration.
Returns `(n1, n2, k, l)`.  Divisions are C truncating division
(`Int.tdiv`); the theorems below show each division here is exact, so the
rounding convention never matters on configuration sizes. -/
def get_nkl (n_more n_less : Int) : Int × Int × Int × Int :=
  let np := n_more + n_less
  let r : Int × Int × Int :=
    if np % 3 = 0 then
      if n_more % 2 ≠ 0 then
        ((n_more + 1).tdiv 2, (n_less - (n_more + 1).tdiv 2 + 2).tdiv 3, 2)
      else
        (n_more.tdiv 2, (n_less - n_more.tdiv 2).tdiv 3, 0)
    else if np % 3 = 1 then
      if n_more % 2 ≠ 0 then
        ((n_more + 1).tdiv 2, (n_less - (n_more + 1).tdiv 2 + 1).tdiv 3, 1)
      else
        (n_more.tdiv 2, (n_less - n_more.tdiv 2 - 1).tdiv 3, 0)
    else
      if n_more % 2 ≠ 0 then
        ((n_more - 1).tdiv 2, (n_less - (n_more - 1).tdiv 2 - 1).tdiv 3, -1)
      else
        (n_more.tdiv 2, (n_less - n_more.tdiv 2 + 1).tdiv 3, 0)
  (r.1, r.2.1, 2 * r.1 + r.2.1 - n_more - r.2.2, r.2.2)

/-- C `switch_more_less`: exchange the MORE and LESS groups. -/
def switch_more_less (c : coin_cfg) : coin_cfg :=
  { c with selM := c.selL, selL := c.selM }

/-- C `get_sel_A`: selections for a type-A configuration.  Returns
`(s1, s2)`; the C return value `n` is `s1.length` whenever the DOUBLE
group is large enough (always the case for configurations produced by
`get_cfg`, see the theorems below). -/
def get_sel_A (cfg : coin_cfg) : List Nat × List Nat :=
  let m := cfg.selD.length
  let nl : Nat × Nat :=
    if m % 3 = 0 then (m / 3, 0)
    else if m % 3 = 1 then
      if cfg.selE.length ≠ 0 then ((m + 2) / 3, 1) else ((m - 1) / 3, 0)
    else ((m + 1) / 3, 0)
  let n := nl.1
  (cfg.selD.take n,
   if nl.2 = 0 then (cfg.selD.drop n).take n
   else (cfg.selD.drop n).take (n - 1) ++ cfg.selE.take 1)

/-- Build the type-B selections from a configuration and a feasible
`get_nkl` result (the array-filling loops of C `get_sel_B`). -/
def sel_from_nkl (cfg : coin_cfg) (r : Int × Int × Int × Int) :
    List Nat × List Nat :=
  let n1 := r.1.toNat
  let n2 := r.2.1.toNat
  let k := r.2.2.1.toNat
  let l := r.2.2.2
  (cfg.selM.take n1 ++ cfg.selL.take n2
     ++ (if l < 0 then cfg.selE.take 1 else []),
   cfg.selM.drop n1 ++ (cfg.selL.drop n2).take k
     ++ (if 0 < l then cfg.selE.take l.toNat else []))

/-- C `get_sel_B`: try `get_nkl`; on a negative `n1`, `n2` or `k` swap
MORE and LESS and retry once; if still negative, fail (C returns 0 and
`weigh_sequential` exits). -/
def get_sel_B (cfg : coin_cfg) : Option (List Nat × List Nat) :=
  let r := get_nkl cfg.selM.length cfg.selL.length
  if r.1 < 0 ∨ r.2.1 < 0 ∨ r.2.2.1 < 0 then
    let cfg2 := switch_more_less cfg
    let r2 := get_nkl cfg2.selM.length cfg2.selL.length
    if r2.1 < 0 ∨ r2.2.1 < 0 ∨ r2.2.2.1 < 0 then none
    else some (sel_from_nkl cfg2 r2)
  else some (sel_from_nkl cfg r)

/-- C `getselection`: dispatch on the configuration type (A or B); any
other configuration is fatal (`exit(1)`), modelled by `none`. -/
def getselection (cfg : coin_cfg) : Option (List Nat × List Nat) :=
  if cfg.selM.length = 0 ∧ cfg.selL.length = 0 ∧ cfg.all_equal ≠ 0 then
    some (get_sel_A cfg)
  else if cfg.selD.length = 0 ∧ cfg.all_equal = 0 then get_sel_B cfg
  else none

/-- C `max3`. -/
def max3 (a b c : Nat) : Nat := max (max a b) c

/-- C `weigh_sequential` (mutually recursive with `split_selection`,
inlined here), with an explicit fuel for the non-structural recursion.
Returns the number of weighing steps, or `none` on any fatal error or on
fuel exhaustion. -/
def weigh_sequential : Nat → List Int → Nat → Option Nat
  | 0, _, _ => none
  | fuel + 1, c, nc =>
    let cfg := get_cfg c nc
    if num_pos cfg ≤ 1 then some 0
    else
      match getselection cfg with
      | none => none
      | some (s1, s2) =>
        if 0 < s1.length then
          let r := weigh c s1 s2
          match weigh_sequential fuel r.2.1 nc,
              weigh_sequential fuel r.1 nc,
              weigh_sequential fuel r.2.2 nc with
          | some r1, some r2, some r3 => some (1 + max3 r1 r2 r3)
          | _, _, _ => none
        else none

/-- C `ipow`. -/
def ipow (x : Nat) : Nat → Nat
  | 0 => 1
  | n + 1 => x * ipow x n

/-- The base-3 digit swap `1 ↔ 2` applied to one digit (the `switch`
inside C `op`). -/
def swap3 (r : Nat) : Nat :=
  if r = 1 then 2 else if r = 2 then 1 else 0

/-- Fuel-indexed body of C `op` (the C loop terminates because `x / 3`
decreases; `x` itself is enough fuel). -/
def opAux : Nat → Nat → Nat
  | 0, _ => 0
  | fuel + 1, x =>
    if x = 0 then 0 else swap3 (x % 3) + 3 * opAux fuel (x / 3)

/-- C `op`: base-3 complement (swap digits 1 and 2). -/
def op (x : Nat) : Nat := opAux x x

/-- C `isfree`: `t` equals no code in `hcode` and no code's complement. -/
def isfree (t : Nat) (hcode : List Nat) : Bool :=
  hcode.all (fun h => (t != h) && (t != op h))

/-- Scan loop of C `missing`: first value from `i` upwards (at most
`fuel` candidates) that `isfree` accepts. -/
def missingAux (b : List Nat) : Nat → Nat → Option Nat
  | _, 0 => none
  | i, fuel + 1 => if isfree i b then some i else missingAux b (i + 1) fuel

/-- C `missing`: smallest value in `1..N` that is neither a code of `b`
nor a code's complement (`none` models the fatal `exit` when no such
value exists). -/
def missing (b : List Nat) (N : Nat) : Option Nat := missingAux b 1 N

/-- C `getbase`: the saturated static solution for `k` weighings (C
requires `k ≥ 2`; the final `qsort` is `mergeSort`). -/
def getbase : Nat → Option (List Nat)
  | 0 => none
  | 1 => none
  | 2 => some [1, 8, 3]
  | k + 3 => do
    let b ← getbase (k + 2)
    let c := ipow 3 (k + 2)
    let m ← missing b (c - 1)
    some ((b ++ b.map (fun x => x + c) ++ b.map (fun x => x + 2 * c)
      ++ [2 * c, m, c + op m]).mergeSort (fun a b => decide (a ≤ b)))

/-- C `mcomplement`, in `Option` form: `none` is the in-loop
`return 0` failure (a digit collision). -/
def mcomplementO : Nat → Nat → Nat → Option Nat
  | _, _, 0 => some 0
  | m, hc, k + 1 =>
    if m % 3 = 0 then do
      let s ← mcomplementO (m / 3) (hc / 3) k
      some (hc % 3 + 3 * s)
    else if hc % 3 ≠ 0 then none
    else do
      let s ← mcomplementO (m / 3) (hc / 3) k
      some (swap3 (m % 3) + 3 * s)

/-- C `mcomplement`: overlay the complement of `m`'s nonzero digits onto
the zero digits of `hc`; 0 signals failure (as in C, where a successful
all-zero result is indistinguishable from failure and is likewise
rejected by the caller). -/
def mcomplement (m hc k : Nat) : Nat := (mcomplementO m hc k).getD 0

/-- Inner loop of C `add`: find the first index `j` whose code can be
complemented against `m`, the new value also being free. -/
def findJAux (m k : Nat) (full : List Nat) : Nat → List Nat → Option (Nat × Nat)
  | _, [] => none
  | j, h :: rest =>
    let t := mcomplement m h k
    if t ≠ 0 ∧ isfree t full then some (j, t)
    else findJAux m k full (j + 1) rest

/-- Outer loop of C `add` over the candidate values `m`. -/
def addScan (hc : List Nat) (k : Nat) : List Nat → Option (List Nat)
  | [] => none
  | m :: ms =>
    if isfree m hc then
      match findJAux m k hc 0 hc with
      | some jt =>
        some ((hc.set jt.1 jt.2 ++ [m]).mergeSort (fun a b => decide (a ≤ b)))
      | none => addScan hc k ms
    else addScan hc k ms

/-- C `add`: extend a code table by one coin, scanning candidate values
`1 .. 3^k - 1` in increasing order (`none` models the fatal
`add failure` exit). -/
def add (hc : List Nat) (k : Nat) : Option (List Nat) :=
  addScan hc k (List.range' 1 (ipow 3 k - 1))

/-- The base-solution search loop at the top of C `weigh_static`
(`for(k = 2;;k++) ...`), with fuel; returns the final `(k, n)`. -/
def findkAux (n_coins : Nat) : Nat → Nat → Nat → Nat × Nat
  | 0, k, n => (k, n)
  | fuel + 1, k, n =>
    let n_base := (ipow 3 k - 1) / 2 - 1
    let n2 := if n_base ≤ n_coins then n_base else n
    if n_coins ≤ n_base then (k, n2) else findkAux n_coins fuel (k + 1) n2

/-- Apply C `add` repeatedly (the `while(n < n_coins)` loop). -/
def addLoop (k : Nat) : List Nat → Nat → Option (List Nat)
  | hc, 0 => some hc
  | hc, cnt + 1 =>
    match add hc k with
    | none => none
    | some hc2 => addLoop k hc2 cnt

/-- C `weigh_static`: find the closest base solution, extend it coin by
coin, return the number of weighings (printing is presentation and is
not modelled). -/
def weigh_static (n_coins : Nat) : Option Nat :=
  let kn := findkAux n_coins (n_coins + 2) 2 0
  match getbase (if kn.2 = n_coins then kn.1 else kn.1 - 1) with
  | none => none
  | some b =>
    match addLoop kn.1 b (n_coins - kn.2) with
    | none => none
    | some _ => some kn.1

/-- The uniqueness relation of the static code tables: two codes are
distinct and neither is the base-3 complement of the other. -/
def distinctFree (a b : Nat) : Prop := a ≠ b ∧ a ≠ op b ∧ b ≠ op a

/-- Invariant of the static builder's tables for `k` weighings: every
code lies in `1 .. 3^k - 1` and the codes are pairwise `distinctFree`. -/
def goodTable (k : Nat) (T : List Nat) : Prop :=
  (∀ x ∈ T, 1 ≤ x ∧ x < 3 ^ k) ∧ T.Pairwise distinctFree

/-- The code tables the static builder can produce for `k` weighings: a
base table from `getbase` (built for at most `k` weighings) followed by
any number of `add` steps at `k` weighings — exactly the tables
`weigh_static` constructs. -/
inductive Produced (k : Nat) : List Nat → Prop
  | base (kb : Nat) (T : List Nat) : kb ≤ k → getbase kb = some T →
      Produced k T
  | step (T T' : List Nat) : Produced k T → add T k = some T' →
      Produced k T'

/-! ## The weighing operation partitions the possibility set (C1) -/

/-- Every hypothesis falls into exactly one of the three outcome
classes. -/
theorem outcome_cases (s1 s2 : List Nat) (ci : Int) :
    outcome s1 s2 ci = C_EQUAL ∨ outcome s1 s2 ci = C_MORE ∨
      outcome s1 s2 ci = C_LESS := by
  unfold outcome balance
  split_ifs <;> simp [C_EQUAL, C_MORE, C_LESS]

theorem count_filter_outcome (c : List Int) (p : Int → Prop)
    [DecidablePred p] (x : Int) (hx : ¬ p x) :
    (c.filter (fun ci => p ci)).count x = 0 := by
  rw [List.count_eq_zero]
  intro hmem
  exact hx (by simpa using (List.mem_filter.mp hmem).2)

theorem count_filter_outcome_pos (c : List Int) (p : Int → Prop)
    [DecidablePred p] (x : Int) (hx : p x) :
    (c.filter (fun ci => p ci)).count x = c.count x := by
  apply List.count_filter
  simpa using hx

/-- Claim C1: for every possibility set and every pan assignment, `weigh`
partitions the set into three pairwise-disjoint outcome subsets whose
union is the original set, with no hypothesis lost or duplicated (counts
are preserved, so even duplicates would be neither lost nor created). -/
theorem claim1_weigh_partition (c : List Int) (s1 s2 : List Nat) :
    (∀ x : Int, x ∈ c ↔
      (x ∈ (weigh c s1 s2).2.1 ∨ x ∈ (weigh c s1 s2).1 ∨
        x ∈ (weigh c s1 s2).2.2)) ∧
    (∀ x : Int, ((weigh c s1 s2).1).count x + ((weigh c s1 s2).2.1).count x
      + ((weigh c s1 s2).2.2).count x = c.count x) ∧
    ((weigh c s1 s2).1).Disjoint ((weigh c s1 s2).2.1) ∧
    ((weigh c s1 s2).1).Disjoint ((weigh c s1 s2).2.2) ∧
    ((weigh c s1 s2).2.1).Disjoint ((weigh c s1 s2).2.2) := by
  unfold weigh
  simp only [List.disjoint_left, List.mem_filter]
  refine ⟨?_, ?_, ?_, ?_, ?_⟩
  · intro x
    constructor
    · intro hx
      rcases outcome_cases s1 s2 x with h | h | h
      · exact Or.inr (Or.inl (by simp [hx, h]))
      · exact Or.inl (by simp [hx, h])
      · exact Or.inr (Or.inr (by simp [hx, h]))
    · rintro (h | h | h) <;> simpa using h.1
  · intro x
    rcases outcome_cases s1 s2 x with h | h | h
    · rw [count_filter_outcome_pos c (fun ci => outcome s1 s2 ci = C_EQUAL) x h,
        count_filter_outcome c (fun ci => outcome s1 s2 ci = C_MORE) x (by simp [h, C_EQUAL, C_MORE]),
        count_filter_outcome c (fun ci => outcome s1 s2 ci = C_LESS) x (by simp [h, C_EQUAL, C_LESS])]
      omega
    · rw [count_filter_outcome_pos c (fun ci => outcome s1 s2 ci = C_MORE) x h,
        count_filter_outcome c (fun ci => outcome s1 s2 ci = C_EQUAL) x (by simp [h, C_EQUAL, C_MORE]),
        count_filter_outcome c (fun ci => outcome s1 s2 ci = C_LESS) x (by simp [h, C_MORE, C_LESS])]
      omega
    · rw [count_filter_outcome_pos c (fun ci => outcome s1 s2 ci = C_LESS) x h,
        count_filter_outcome c (fun ci => outcome s1 s2 ci = C_EQUAL) x (by simp [h, C_EQUAL, C_LESS]),
        count_filter_outcome c (fun ci => outcome s1 s2 ci = C_MORE) x (by simp [h, C_MORE, C_LESS])]
      omega
  · intro x hx
    simp only [decide_eq_true_eq] at hx ⊢
    simp [hx.2, C_EQUAL, C_MORE]
  · intro x hx
    simp only [decide_eq_true_eq] at hx ⊢
    simp [hx.2, C_EQUAL, C_LESS]
  · intro x hx
    simp only [decide_eq_true_eq] at hx ⊢
    simp [hx.2, C_MORE, C_LESS]

/-! ## Concrete depths (C3, C9) -/

/-- Claim C3: for 12 coins the sequential solver needs 3 weighings, and
the static solver also needs 3 weighings.  The fuel 26 exceeds the
initial possibility-set size 25, which the termination theorem below
shows is always enough. -/
theorem claim3_twelve_coins :
    weigh_sequential 26 (new_coins 12) 12 = some 3 ∧
      weigh_static 12 = some 3 := by
  constructor <;> decide

/-- Claim C9 counterexample: for 3 coins the sequential solver does NOT
return depth 1 (7 hypotheses cannot be separated by one weighing). -/
theorem claim9_counterexample :
    weigh_sequential 8 (new_coins 3) 3 ≠ some 1 := by
  decide

/-- Claim C9 as amended: for 3 coins the sequential solver returns
depth 2. -/
theorem claim9_three_coins_depth_two :
    weigh_sequential 8 (new_coins 3) 3 = some 2 := by
  decide

/-! ## Structure of `get_cfg` -/

/-- The scan condition for coin `k`: the hypothesis `ci` mentions coin
`k` (heavy or light). -/
def hitP (k : Nat) (ci : Int) : Bool :=
  decide ((0 < ci ∧ ci - 1 = (k : Int)) ∨ (ci < 0 ∧ -ci - 1 = (k : Int)))

theorem scanCoinAux_hit (k : Nat) (c : List Int) :
    ∀ h t a, (scanCoinAux k h t a c).1 = h + c.countP (hitP k) := by
  induction c with
  | nil => intro h t a; simp [scanCoinAux]
  | cons ci rest ih =>
    intro h t a
    rw [List.countP_cons]
    by_cases h1 : 0 < ci ∧ ci - 1 = (k : Int)
    · rw [scanCoinAux, if_pos h1, ih]
      have hp : hitP k ci = true := by unfold hitP; exact decide_eq_true (Or.inl h1)
      rw [if_pos hp]; omega
    · by_cases h2 : ci < 0 ∧ -ci - 1 = (k : Int)
      · rw [scanCoinAux, if_neg h1, if_pos h2, ih]
        have hp : hitP k ci = true := by unfold hitP; exact decide_eq_true (Or.inr h2)
        rw [if_pos hp]; omega
      · have hp : ¬ hitP k ci = true := by
          unfold hitP
          simp only [decide_eq_true_eq]
          tauto
        rw [if_neg hp]
        by_cases h3 : ci = 0
        · rw [scanCoinAux, if_neg h1, if_neg h2, if_pos h3, ih]; omega
        · rw [scanCoinAux, if_neg h1, if_neg h2, if_neg h3, ih]; omega

/-- `hitP` counts heavy and light occurrences of coin `k`. -/
theorem countP_hitP (k : Nat) (c : List Int) :
    c.countP (hitP k) = c.count ((k : Int) + 1) + c.count (-((k : Int) + 1)) := by
  induction c with
  | nil => rfl
  | cons ci rest ih =>
    rw [List.countP_cons, List.count_cons, List.count_cons, ih]
    by_cases hp : ci = (k : Int) + 1
    · have h1 : hitP k ci = true := by
        unfold hitP; exact decide_eq_true (Or.inl (by omega))
      have h2 : (ci == (k : Int) + 1) = true := by exact beq_iff_eq.mpr hp
      have h3 : ¬ (ci == -((k : Int) + 1)) = true := by
        simp only [beq_iff_eq]; omega
      rw [if_pos h1, if_pos h2, if_neg h3]
      omega
    · by_cases hn : ci = -((k : Int) + 1)
      · have h1 : hitP k ci = true := by
          unfold hitP; exact decide_eq_true (Or.inr (by omega))
        have h2 : ¬ (ci == (k : Int) + 1) = true := by
          simp only [beq_iff_eq]; omega
        have h3 : (ci == -((k : Int) + 1)) = true := by exact beq_iff_eq.mpr hn
        rw [if_pos h1, if_neg h2, if_pos h3]
        omega
      · have h1 : ¬ hitP k ci = true := by
          unfold hitP
          simp only [decide_eq_true_eq]
          omega
        have h2 : ¬ (ci == (k : Int) + 1) = true := by
          simp only [beq_iff_eq]; omega
        have h3 : ¬ (ci == -((k : Int) + 1)) = true := by
          simp only [beq_iff_eq]; omega
        rw [if_neg h1, if_neg h2, if_neg h3]
        omega

theorem scanCoinAux_flag (k : Nat) (c : List Int) :
    ∀ h t a, (scanCoinAux k h t a c).2.2 = (a || decide ((0 : Int) ∈ c)) := by
  induction c with
  | nil => intro h t a; simp [scanCoinAux]
  | cons ci rest ih =>
    intro h t a
    have hmem : decide ((0 : Int) ∈ ci :: rest) =
        (decide ((0 : Int) = ci) || decide ((0 : Int) ∈ rest)) := by
      simp [List.mem_cons]
    by_cases h3 : ci = 0
    · have h1 : ¬(0 < ci ∧ ci - 1 = (k : Int)) := by omega
      have h2 : ¬(ci < 0 ∧ -ci - 1 = (k : Int)) := by omega
      have h0 : decide ((0 : Int) = ci) = true := by
        subst h3; simp
      rw [scanCoinAux, if_neg h1, if_neg h2, if_pos h3, ih, hmem, h0]
      simp
    · have h0 : decide ((0 : Int) = ci) = false := by
        simp only [decide_eq_false_iff_not]
        omega
      rw [scanCoinAux]
      by_cases h1 : 0 < ci ∧ ci - 1 = (k : Int)
      · rw [if_pos h1, ih, hmem, h0]; simp
      · by_cases h2 : ci < 0 ∧ -ci - 1 = (k : Int)
        · rw [if_neg h1, if_pos h2, ih, hmem, h0]; simp
        · rw [if_neg h1, if_neg h2, if_neg h3, ih, hmem, h0]; simp

theorem scanCoinAux_type_stable (k : Nat) (c : List Int)
    (hp : c.count ((k : Int) + 1) = 0) (hn : c.count (-((k : Int) + 1)) = 0) :
    ∀ h t a, (scanCoinAux k h t a c).2.1 = t := by
  induction c with
  | nil => intro h t a; simp [scanCoinAux]
  | cons ci rest ih =>
    intro h t a
    rw [List.count_cons] at hp hn
    have hpos : ci ≠ (k : Int) + 1 := by
      intro h'
      rw [if_pos (beq_iff_eq.mpr h')] at hp
      omega
    have hneg : ci ≠ -((k : Int) + 1) := by
      intro h'
      rw [if_pos (beq_iff_eq.mpr h')] at hn
      omega
    have h1 : ¬(0 < ci ∧ ci - 1 = (k : Int)) := by omega
    have h2 : ¬(ci < 0 ∧ -ci - 1 = (k : Int)) := by omega
    have hp' : rest.count ((k : Int) + 1) = 0 := by
      by_cases hb : (ci == (k : Int) + 1) = true
      · exact absurd (beq_iff_eq.mp hb) hpos
      · rw [if_neg hb] at hp; omega
    have hn' : rest.count (-((k : Int) + 1)) = 0 := by
      by_cases hb : (ci == -((k : Int) + 1)) = true
      · exact absurd (beq_iff_eq.mp hb) hneg
      · rw [if_neg hb] at hn; omega
    rw [scanCoinAux, if_neg h1, if_neg h2]
    by_cases h3 : ci = 0
    · rw [if_pos h3]; exact ih hp' hn' _ _ _
    · rw [if_neg h3]; exact ih hp' hn' _ _ _

theorem scanCoinAux_type_more (k : Nat) (c : List Int)
    (hn : c.count (-((k : Int) + 1)) = 0) (hmem : ((k : Int) + 1) ∈ c) :
    ∀ h t a, (scanCoinAux k h t a c).2.1 = C_MORE := by
  induction c with
  | nil => intro h t a; simp at hmem
  | cons ci rest ih =>
    intro h t a
    rw [List.count_cons] at hn
    have hneg : ci ≠ -((k : Int) + 1) := by
      intro h'
      rw [if_pos (beq_iff_eq.mpr h')] at hn
      omega
    have hn' : rest.count (-((k : Int) + 1)) = 0 := by
      by_cases hb : (ci == -((k : Int) + 1)) = true
      · exact absurd (beq_iff_eq.mp hb) hneg
      · rw [if_neg hb] at hn; omega
    by_cases hc : ci = (k : Int) + 1
    · have h1 : 0 < ci ∧ ci - 1 = (k : Int) := by omega
      rw [scanCoinAux, if_pos h1]
      by_cases hm : ((k : Int) + 1) ∈ rest
      · exact ih hn' hm _ _ _
      · exact scanCoinAux_type_stable k rest
          (List.count_eq_zero.mpr hm) hn' _ _ _
    · have hmem' : ((k : Int) + 1) ∈ rest := by
        rcases List.mem_cons.mp hmem with h' | h'
        · exact absurd h'.symm hc
        · exact h'
      have h1 : ¬(0 < ci ∧ ci - 1 = (k : Int)) := by omega
      have h2 : ¬(ci < 0 ∧ -ci - 1 = (k : Int)) := by omega
      rw [scanCoinAux, if_neg h1, if_neg h2]
      by_cases h3 : ci = 0
      · rw [if_pos h3]; exact ih hn' hmem' _ _ _
      · rw [if_neg h3]; exact ih hn' hmem' _ _ _

theorem scanCoinAux_type_less (k : Nat) (c : List Int)
    (hp : c.count ((k : Int) + 1) = 0) (hmem : (-((k : Int) + 1)) ∈ c) :
    ∀ h t a, (scanCoinAux k h t a c).2.1 = C_LESS := by
  induction c with
  | nil => intro h t a; simp at hmem
  | cons ci rest ih =>
    intro h t a
    rw [List.count_cons] at hp
    have hpos : ci ≠ (k : Int) + 1 := by
      intro h'
      rw [if_pos (beq_iff_eq.mpr h')] at hp
      omega
    have hp' : rest.count ((k : Int) + 1) = 0 := by
      by_cases hb : (ci == (k : Int) + 1) = true
      · exact absurd (beq_iff_eq.mp hb) hpos
      · rw [if_neg hb] at hp; omega
    by_cases hc : ci = -((k : Int) + 1)
    · have h1 : ¬(0 < ci ∧ ci - 1 = (k : Int)) := by omega
      have h2 : ci < 0 ∧ -ci - 1 = (k : Int) := by omega
      rw [scanCoinAux, if_neg h1, if_pos h2]
      by_cases hm : (-((k : Int) + 1)) ∈ rest
      · exact ih hp' hm _ _ _
      · exact scanCoinAux_type_stable k rest hp'
          (List.count_eq_zero.mpr hm) _ _ _
    · have hmem' : (-((k : Int) + 1)) ∈ rest := by
        rcases List.mem_cons.mp hmem with h' | h'
        · exact absurd h'.symm hc
        · exact h'
      have h1 : ¬(0 < ci ∧ ci - 1 = (k : Int)) := by
        intro h'; omega
      by_cases h2 : ci < 0 ∧ -ci - 1 = (k : Int)
      · exact absurd (by omega : ci = -((k : Int) + 1)) hc
      · rw [scanCoinAux, if_neg h1, if_neg h2]
        by_cases h3 : ci = 0
        · rw [if_pos h3]; exact ih hp' hmem' _ _ _
        · rw [if_neg h3]; exact ih hp' hmem' _ _ _

/-- If the scan ends in `C_MORE`, either it started there or the heavy
hypothesis for coin `k` occurs in the set. -/
theorem scanCoinAux_more_mem (k : Nat) (c : List Int) :
    ∀ h t a, (scanCoinAux k h t a c).2.1 = C_MORE →
      t = C_MORE ∨ ((k : Int) + 1) ∈ c := by
  induction c with
  | nil => intro h t a hr; simp [scanCoinAux] at hr; exact Or.inl hr
  | cons ci rest ih =>
    intro h t a hr
    by_cases h1 : 0 < ci ∧ ci - 1 = (k : Int)
    · exact Or.inr (List.mem_cons.mpr (Or.inl (by omega)))
    · by_cases h2 : ci < 0 ∧ -ci - 1 = (k : Int)
      · rw [scanCoinAux, if_neg h1, if_pos h2] at hr
        rcases ih _ _ _ hr with h' | h'
        · exact absurd h' (by simp [C_LESS, C_MORE])
        · exact Or.inr (List.mem_cons_of_mem _ h')
      · rw [scanCoinAux, if_neg h1, if_neg h2] at hr
        by_cases h3 : ci = 0
        · rw [if_pos h3] at hr
          rcases ih _ _ _ hr with h' | h'
          · exact Or.inl h'
          · exact Or.inr (List.mem_cons_of_mem _ h')
        · rw [if_neg h3] at hr
          rcases ih _ _ _ hr with h' | h'
          · exact Or.inl h'
          · exact Or.inr (List.mem_cons_of_mem _ h')

theorem scanCoinAux_less_mem (k : Nat) (c : List Int) :
    ∀ h t a, (scanCoinAux k h t a c).2.1 = C_LESS →
      t = C_LESS ∨ (-((k : Int) + 1)) ∈ c := by
  induction c with
  | nil => intro h t a hr; simp [scanCoinAux] at hr; exact Or.inl hr
  | cons ci rest ih =>
    intro h t a hr
    by_cases h2 : ci < 0 ∧ -ci - 1 = (k : Int)
    · exact Or.inr (List.mem_cons.mpr (Or.inl (by omega)))
    · by_cases h1 : 0 < ci ∧ ci - 1 = (k : Int)
      · rw [scanCoinAux, if_pos h1] at hr
        rcases ih _ _ _ hr with h' | h'
        · exact absurd h' (by simp [C_LESS, C_MORE])
        · exact Or.inr (List.mem_cons_of_mem _ h')
      · rw [scanCoinAux, if_neg h1, if_neg h2] at hr
        by_cases h3 : ci = 0
        · rw [if_pos h3] at hr
          rcases ih _ _ _ hr with h' | h'
          · exact Or.inl h'
          · exact Or.inr (List.mem_cons_of_mem _ h')
        · rw [if_neg h3] at hr
          rcases ih _ _ _ hr with h' | h'
          · exact Or.inl h'
          · exact Or.inr (List.mem_cons_of_mem _ h')

theorem scanCoinAux_type_cases (k : Nat) (c : List Int) :
    ∀ h t a, (scanCoinAux k h t a c).2.1 = t ∨
      (scanCoinAux k h t a c).2.1 = C_MORE ∨
      (scanCoinAux k h t a c).2.1 = C_LESS := by
  induction c with
  | nil => intro h t a; exact Or.inl rfl
  | cons ci rest ih =>
    intro h t a
    rw [scanCoinAux]
    by_cases h1 : 0 < ci ∧ ci - 1 = (k : Int)
    · rw [if_pos h1]
      rcases ih (h + 1) C_MORE a with h' | h' | h' <;> tauto
    · rw [if_neg h1]
      by_cases h2 : ci < 0 ∧ -ci - 1 = (k : Int)
      · rw [if_pos h2]
        rcases ih (h + 1) C_LESS a with h' | h' | h' <;> tauto
      · rw [if_neg h2]
        by_cases h3 : ci = 0
        · rw [if_pos h3]; exact ih h t true
        · rw [if_neg h3]; exact ih h t a

/-- The classifier assigns one of the four C types to every coin. -/
theorem coinType_cases (c : List Int) (k : Nat) :
    coinType c k = C_EQUAL ∨ coinType c k = C_MORE ∨
      coinType c k = C_LESS ∨ coinType c k = C_DOUBLE := by
  unfold coinType scanCoin
  by_cases hh : (scanCoinAux k 0 C_EQUAL false c).1 = 2
  · rw [if_pos hh]; tauto
  · rw [if_neg hh]
    rcases scanCoinAux_type_cases k c 0 C_EQUAL false with h' | h' | h' <;> tauto

/-- `C_MORE` classification implies the heavy hypothesis is present. -/
theorem coinType_more_mem (c : List Int) (k : Nat)
    (h : coinType c k = C_MORE) : ((k : Int) + 1) ∈ c := by
  unfold coinType scanCoin at h
  by_cases hh : (scanCoinAux k 0 C_EQUAL false c).1 = 2
  · rw [if_pos hh] at h; exact absurd h (by simp [C_DOUBLE, C_MORE])
  · rw [if_neg hh] at h
    rcases scanCoinAux_more_mem k c 0 C_EQUAL false h with h' | h'
    · exact absurd h' (by simp [C_EQUAL, C_MORE])
    · exact h'

/-- `C_LESS` classification implies the light hypothesis is present. -/
theorem coinType_less_mem (c : List Int) (k : Nat)
    (h : coinType c k = C_LESS) : (-((k : Int) + 1)) ∈ c := by
  unfold coinType scanCoin at h
  by_cases hh : (scanCoinAux k 0 C_EQUAL false c).1 = 2
  · rw [if_pos hh] at h; exact absurd h (by simp [C_DOUBLE, C_LESS])
  · rw [if_neg hh] at h
    rcases scanCoinAux_less_mem k c 0 C_EQUAL false h with h' | h'
    · exact absurd h' (by simp [C_EQUAL, C_LESS])
    · exact h'

/-- `C_DOUBLE` classification implies one of the two hypotheses is
present. -/
theorem coinType_double_mem (c : List Int) (k : Nat)
    (h : coinType c k = C_DOUBLE) :
    ((k : Int) + 1) ∈ c ∨ (-((k : Int) + 1)) ∈ c := by
  unfold coinType scanCoin at h
  by_cases hh : (scanCoinAux k 0 C_EQUAL false c).1 = 2
  · have hc : c.countP (hitP k) = 2 := by
      have := scanCoinAux_hit k c 0 C_EQUAL false
      omega
    have hpos : 0 < c.countP (hitP k) := by omega
    rcases List.countP_pos_iff.mp hpos with ⟨x, hx, hpx⟩
    have : (0 < x ∧ x - 1 = (k : Int)) ∨ (x < 0 ∧ -x - 1 = (k : Int)) := by
      have := of_decide_eq_true hpx
      exact this
    rcases this with h' | h'
    · left; have : x = (k : Int) + 1 := by omega
      rwa [this] at hx
    · right; have : x = -((k : Int) + 1) := by omega
      rwa [this] at hx
  · rw [if_neg hh] at h
    rcases scanCoinAux_type_cases k c 0 C_EQUAL false with h' | h' | h' <;>
      rw [h] at h' <;> exact absurd h' (by simp [C_EQUAL, C_MORE, C_LESS, C_DOUBLE])

theorem addSel_all_equal (g : coin_cfg) (t k : Nat) :
    (addSel g t k).all_equal = g.all_equal := by
  unfold addSel; split_ifs <;> rfl

/-- One step of `get_cfg`, with the scanned data replaced by its
characterization. -/
theorem get_cfg_succ (c : List Int) (n : Nat) :
    get_cfg c (n + 1) =
      { addSel (get_cfg c n) (coinType c n) n with
          all_equal := if (0 : Int) ∈ c then 1
            else (addSel (get_cfg c n) (coinType c n) n).all_equal } := by
  rw [get_cfg]
  have hflag : (scanCoin c n).2.2 = decide ((0 : Int) ∈ c) := by
    unfold scanCoin
    rw [scanCoinAux_flag]
    simp
  have hct : (if (scanCoin c n).1 = 2 then C_DOUBLE else (scanCoin c n).2.1)
      = coinType c n := rfl
  rw [hct, hflag]
  by_cases h0 : (0 : Int) ∈ c
  · simp [h0]
  · simp [h0]

theorem get_cfg_all_equal (c : List Int) (n : Nat) :
    (get_cfg c n).all_equal =
      if 0 < n ∧ (0 : Int) ∈ c then 1 else 0 := by
  induction n with
  | zero => simp [get_cfg]
  | succ n ih =>
    rw [get_cfg_succ]
    by_cases h0 : (0 : Int) ∈ c
    · simp [h0]
    · simp [h0, addSel_all_equal, ih]

theorem addSel_selM (g : coin_cfg) (t k : Nat) :
    (addSel g t k).selM = if t = C_MORE then g.selM ++ [k] else g.selM := by
  unfold addSel
  split_ifs <;> simp_all

theorem addSel_selL (g : coin_cfg) (t k : Nat) :
    (addSel g t k).selL = if t = C_LESS then g.selL ++ [k] else g.selL := by
  unfold addSel
  split_ifs <;> simp_all [C_MORE, C_LESS]

theorem addSel_selD (g : coin_cfg) (t k : Nat) :
    (addSel g t k).selD = if t = C_DOUBLE then g.selD ++ [k] else g.selD := by
  unfold addSel
  split_ifs <;> simp_all [C_MORE, C_LESS, C_DOUBLE]

theorem addSel_selE (g : coin_cfg) (t k : Nat) :
    (addSel g t k).selE =
      if t = C_MORE ∨ t = C_LESS ∨ t = C_DOUBLE then g.selE
      else g.selE ++ [k] := by
  unfold addSel
  split_ifs <;> simp_all

theorem get_cfg_selM (c : List Int) (n : Nat) :
    (get_cfg c n).selM =
      (List.range n).filter (fun k => decide (coinType c k = C_MORE)) := by
  induction n with
  | zero => rfl
  | succ n ih =>
    rw [get_cfg_succ, List.range_succ, List.filter_append]
    have : (addSel (get_cfg c n) (coinType c n) n).selM =
        if coinType c n = C_MORE then (get_cfg c n).selM ++ [n]
        else (get_cfg c n).selM := addSel_selM _ _ _
    by_cases hm : coinType c n = C_MORE
    · simp only [coin_cfg.mk.injEq]
      show (addSel (get_cfg c n) (coinType c n) n).selM = _
      rw [this, if_pos hm, ih]
      simp [hm]
    · show (addSel (get_cfg c n) (coinType c n) n).selM = _
      rw [this, if_neg hm, ih]
      simp [hm]

theorem get_cfg_selL (c : List Int) (n : Nat) :
    (get_cfg c n).selL =
      (List.range n).filter (fun k => decide (coinType c k = C_LESS)) := by
  induction n with
  | zero => rfl
  | succ n ih =>
    rw [get_cfg_succ, List.range_succ, List.filter_append]
    have : (addSel (get_cfg c n) (coinType c n) n).selL =
        if coinType c n = C_LESS then (get_cfg c n).selL ++ [n]
        else (get_cfg c n).selL := addSel_selL _ _ _
    by_cases hm : coinType c n = C_LESS
    · show (addSel (get_cfg c n) (coinType c n) n).selL = _
      rw [this, if_pos hm, ih]
      simp [hm]
    · show (addSel (get_cfg c n) (coinType c n) n).selL = _
      rw [this, if_neg hm, ih]
      simp [hm]

theorem get_cfg_selD (c : List Int) (n : Nat) :
    (get_cfg c n).selD =
      (List.range n).filter (fun k => decide (coinType c k = C_DOUBLE)) := by
  induction n with
  | zero => rfl
  | succ n ih =>
    rw [get_cfg_succ, List.range_succ, List.filter_append]
    have : (addSel (get_cfg c n) (coinType c n) n).selD =
        if coinType c n = C_DOUBLE then (get_cfg c n).selD ++ [n]
        else (get_cfg c n).selD := addSel_selD _ _ _
    by_cases hm : coinType c n = C_DOUBLE
    · show (addSel (get_cfg c n) (coinType c n) n).selD = _
      rw [this, if_pos hm, ih]
      simp [hm]
    · show (addSel (get_cfg c n) (coinType c n) n).selD = _
      rw [this, if_neg hm, ih]
      simp [hm]

theorem get_cfg_selE (c : List Int) (n : Nat) :
    (get_cfg c n).selE =
      (List.range n).filter (fun k => decide (coinType c k = C_EQUAL)) := by
  induction n with
  | zero => rfl
  | succ n ih =>
    rw [get_cfg_succ, List.range_succ, List.filter_append]
    have : (addSel (get_cfg c n) (coinType c n) n).selE =
        if coinType c n = C_MORE ∨ coinType c n = C_LESS ∨
            coinType c n = C_DOUBLE then (get_cfg c n).selE
        else (get_cfg c n).selE ++ [n] := addSel_selE _ _ _
    by_cases hm : coinType c n = C_EQUAL
    · have ho : ¬(coinType c n = C_MORE ∨ coinType c n = C_LESS ∨
          coinType c n = C_DOUBLE) := by
        rw [hm]; simp [C_EQUAL, C_MORE, C_LESS, C_DOUBLE]
      show (addSel (get_cfg c n) (coinType c n) n).selE = _
      rw [this, if_neg ho, ih]
      simp [hm]
    · have ho : coinType c n = C_MORE ∨ coinType c n = C_LESS ∨
          coinType c n = C_DOUBLE := by
        rcases coinType_cases c n with h' | h' | h' | h' <;> tauto
      show (addSel (get_cfg c n) (coinType c n) n).selE = _
      rw [this, if_pos ho, ih]
      simp [hm]

/-! ## Configuration size accounting (C10) -/

theorem coinType_eq_double (c : List Int) (hnd : c.Nodup) (k : Nat)
    (hp : ((k : Int) + 1) ∈ c) (hn : (-((k : Int) + 1)) ∈ c) :
    coinType c k = C_DOUBLE := by
  unfold coinType scanCoin
  have hhit : (scanCoinAux k 0 C_EQUAL false c).1 = 2 := by
    rw [scanCoinAux_hit, countP_hitP,
      List.count_eq_one_of_mem hnd hp, List.count_eq_one_of_mem hnd hn]
  rw [if_pos hhit]

theorem coinType_eq_more (c : List Int) (hnd : c.Nodup) (k : Nat)
    (hp : ((k : Int) + 1) ∈ c) (hn : (-((k : Int) + 1)) ∉ c) :
    coinType c k = C_MORE := by
  unfold coinType scanCoin
  have hcn : c.count (-((k : Int) + 1)) = 0 := List.count_eq_zero.mpr hn
  have hhit : (scanCoinAux k 0 C_EQUAL false c).1 ≠ 2 := by
    rw [scanCoinAux_hit, countP_hitP, List.count_eq_one_of_mem hnd hp, hcn]
    omega
  rw [if_neg hhit]
  exact scanCoinAux_type_more k c hcn hp 0 C_EQUAL false

theorem coinType_eq_less (c : List Int) (hnd : c.Nodup) (k : Nat)
    (hp : ((k : Int) + 1) ∉ c) (hn : (-((k : Int) + 1)) ∈ c) :
    coinType c k = C_LESS := by
  unfold coinType scanCoin
  have hcp : c.count ((k : Int) + 1) = 0 := List.count_eq_zero.mpr hp
  have hhit : (scanCoinAux k 0 C_EQUAL false c).1 ≠ 2 := by
    rw [scanCoinAux_hit, countP_hitP, List.count_eq_one_of_mem hnd hn, hcp]
    omega
  rw [if_neg hhit]
  exact scanCoinAux_type_less k c hcp hn 0 C_EQUAL false

theorem coinType_eq_equal (c : List Int) (k : Nat)
    (hp : ((k : Int) + 1) ∉ c) (hn : (-((k : Int) + 1)) ∉ c) :
    coinType c k = C_EQUAL := by
  unfold coinType scanCoin
  have hcp : c.count ((k : Int) + 1) = 0 := List.count_eq_zero.mpr hp
  have hcn : c.count (-((k : Int) + 1)) = 0 := List.count_eq_zero.mpr hn
  have hhit : (scanCoinAux k 0 C_EQUAL false c).1 ≠ 2 := by
    rw [scanCoinAux_hit, countP_hitP, hcp, hcn]
    omega
  rw [if_neg hhit]
  exact scanCoinAux_type_stable k c hcp hcn 0 C_EQUAL false

/-- The hypothesis weight of a single coin equals its hit count. -/
theorem coinType_weight (c : List Int) (hnd : c.Nodup) (k : Nat) :
    ((if coinType c k = C_MORE then 1 else 0)
      + (if coinType c k = C_LESS then 1 else 0)
      + 2 * (if coinType c k = C_DOUBLE then 1 else 0) : Nat)
      = c.count ((k : Int) + 1) + c.count (-((k : Int) + 1)) := by
  by_cases hp : ((k : Int) + 1) ∈ c
  · by_cases hn : (-((k : Int) + 1)) ∈ c
    · rw [coinType_eq_double c hnd k hp hn,
        List.count_eq_one_of_mem hnd hp, List.count_eq_one_of_mem hnd hn]
      simp [C_MORE, C_LESS, C_DOUBLE]
    · rw [coinType_eq_more c hnd k hp hn,
        List.count_eq_one_of_mem hnd hp, List.count_eq_zero.mpr hn]
      simp [C_MORE, C_LESS, C_DOUBLE]
  · by_cases hn : (-((k : Int) + 1)) ∈ c
    · rw [coinType_eq_less c hnd k hp hn,
        List.count_eq_zero.mpr hp, List.count_eq_one_of_mem hnd hn]
      simp [C_MORE, C_LESS, C_DOUBLE]
    · rw [coinType_eq_equal c k hp hn,
        List.count_eq_zero.mpr hp, List.count_eq_zero.mpr hn]
      simp [C_EQUAL, C_MORE, C_LESS, C_DOUBLE]

theorem countP_range_sum (p : Nat → Bool) (n : Nat) :
    (List.range n).countP p = ∑ k ∈ Finset.range n, (if p k then 1 else 0) := by
  induction n with
  | zero => rfl
  | succ n ih =>
    rw [List.range_succ, List.countP_append, Finset.sum_range_succ, ih]
    simp [List.countP_cons]

theorem sum_indicator_pos (x : Int) (n : Nat) :
    (∑ k ∈ Finset.range n, if x = (k : Int) + 1 then (1 : Nat) else 0)
      = if 0 < x ∧ x.natAbs ≤ n then 1 else 0 := by
  by_cases hx : 0 < x ∧ x.natAbs ≤ n
  · rw [if_pos hx]
    have h1 : ∀ k ∈ Finset.range n, (if x = (k : Int) + 1 then (1 : Nat) else 0)
        = if k = x.natAbs - 1 then 1 else 0 := by
      intro k hk
      congr 1
      simp only [eq_iff_iff]
      omega
    rw [Finset.sum_congr rfl h1,
      Finset.sum_ite_eq' (Finset.range n) (x.natAbs - 1) (fun _ => (1 : Nat))]
    rw [if_pos]
    simp only [Finset.mem_range]
    omega
  · rw [if_neg hx]
    apply Finset.sum_eq_zero
    intro k hk
    rw [if_neg]
    simp only [Finset.mem_range] at hk
    omega

theorem sum_indicator_neg (x : Int) (n : Nat) :
    (∑ k ∈ Finset.range n, if x = -((k : Int) + 1) then (1 : Nat) else 0)
      = if x < 0 ∧ x.natAbs ≤ n then 1 else 0 := by
  by_cases hx : x < 0 ∧ x.natAbs ≤ n
  · rw [if_pos hx]
    have h1 : ∀ k ∈ Finset.range n, (if x = -((k : Int) + 1) then (1 : Nat) else 0)
        = if k = x.natAbs - 1 then 1 else 0 := by
      intro k hk
      congr 1
      simp only [eq_iff_iff]
      omega
    rw [Finset.sum_congr rfl h1,
      Finset.sum_ite_eq' (Finset.range n) (x.natAbs - 1) (fun _ => (1 : Nat))]
    rw [if_pos]
    simp only [Finset.mem_range]
    omega
  · rw [if_neg hx]
    apply Finset.sum_eq_zero
    intro k hk
    rw [if_neg]
    simp only [Finset.mem_range] at hk
    omega

/-- Summing the per-coin hit counts over all coins counts every nonzero
hypothesis exactly once. -/
theorem sum_counts (c : List Int) (n : Nat)
    (huniv : ∀ x ∈ c, x = 0 ∨ (1 ≤ x.natAbs ∧ x.natAbs ≤ n)) :
    (∑ k ∈ Finset.range n,
        (c.count ((k : Int) + 1) + c.count (-((k : Int) + 1))))
      = c.countP (fun x => !(x == 0)) := by
  induction c with
  | nil => simp
  | cons x rest ih =>
    have hx := huniv x (List.mem_cons_self x rest)
    have hrest : ∀ y ∈ rest, y = 0 ∨ (1 ≤ y.natAbs ∧ y.natAbs ≤ n) :=
      fun y hy => huniv y (List.mem_cons_of_mem x hy)
    have hcnt : ∀ k ∈ Finset.range n,
        ((x :: rest).count ((k : Int) + 1) + (x :: rest).count (-((k : Int) + 1)))
        = (rest.count ((k : Int) + 1) + rest.count (-((k : Int) + 1)))
          + ((if x = (k : Int) + 1 then 1 else 0)
            + (if x = -((k : Int) + 1) then 1 else 0)) := by
      intro k hk
      rw [List.count_cons, List.count_cons]
      by_cases h1 : (x == (k : Int) + 1) = true
      · have h1' : x = (k : Int) + 1 := beq_iff_eq.mp h1
        have h2 : ¬(x == -((k : Int) + 1)) = true := by
          simp only [beq_iff_eq]; omega
        rw [if_pos h1, if_neg h2, if_pos h1', if_neg (by omega : ¬ x = -((k : Int) + 1))]
        omega
      · have h1' : ¬ x = (k : Int) + 1 := by
          intro h'; exact h1 (beq_iff_eq.mpr h')
        by_cases h2 : (x == -((k : Int) + 1)) = true
        · have h2' : x = -((k : Int) + 1) := beq_iff_eq.mp h2
          rw [if_neg h1, if_pos h2, if_neg h1', if_pos h2']
          omega
        · have h2' : ¬ x = -((k : Int) + 1) := by
            intro h'; exact h2 (beq_iff_eq.mpr h')
          rw [if_neg h1, if_neg h2, if_neg h1', if_neg h2']
          omega
    rw [Finset.sum_congr rfl hcnt, Finset.sum_add_distrib, ih hrest,
      Finset.sum_add_distrib, sum_indicator_pos, sum_indicator_neg,
      List.countP_cons]
    by_cases h0 : x = 0
    · rw [if_neg (by omega : ¬(0 < x ∧ x.natAbs ≤ n)),
        if_neg (by omega : ¬(x < 0 ∧ x.natAbs ≤ n))]
      have : (!(x == 0)) = false := by simp [h0]
      rw [this]
      simp
    · have habs : 1 ≤ x.natAbs ∧ x.natAbs ≤ n := by
        rcases hx with h' | h'
        · exact absurd h' h0
        · exact h'
      have : (!(x == 0)) = true := by simp [h0]
      rw [this]
      rcases lt_or_gt_of_ne (fun h' => h0 h' : x ≠ 0) with hlt | hgt
      · rw [if_neg (by omega : ¬(0 < x ∧ x.natAbs ≤ n)),
          if_pos (⟨hlt, habs.2⟩ : x < 0 ∧ x.natAbs ≤ n)]
        simp
      · rw [if_pos (⟨hgt, habs.2⟩ : 0 < x ∧ x.natAbs ≤ n),
          if_neg (by omega : ¬(x < 0 ∧ x.natAbs ≤ n))]
        simp

theorem countP_ne_zero_add_count_zero (c : List Int) :
    c.countP (fun x => !(x == 0)) + c.count 0 = c.length := by
  induction c with
  | nil => rfl
  | cons x rest ih =>
    rw [List.countP_cons, List.count_cons, List.length_cons]
    by_cases h0 : x = 0
    · have h1 : (!(x == 0)) = false := by simp [h0]
      have h2 : (x == (0 : Int)) = true := beq_iff_eq.mpr h0
      rw [h1, if_pos h2]
      simp only [Bool.false_eq_true, if_false]
      omega
    · have h1 : (!(x == 0)) = true := by simp [h0]
      have h2 : ¬(x == (0 : Int)) = true := by simp [h0]
      rw [h1, if_neg h2, if_pos rfl]
      omega

/-- Claim C10: for every duplicate-free subset of the hypothesis
universe of `n ≥ 1` coins, `|LESS| + |MORE| + 2·|DOUBLE| + all_equal`
equals the possibility-set size, and the terminal test `num_pos ≤ 1`
agrees with `npos ≤ 1`. -/
theorem claim10_cfg_size (c : List Int) (n : Nat) (hn : 0 < n)
    (hnd : c.Nodup)
    (huniv : ∀ x ∈ c, x = 0 ∨ (1 ≤ x.natAbs ∧ x.natAbs ≤ n)) :
    ((get_cfg c n).selL.length + (get_cfg c n).selM.length
      + 2 * (get_cfg c n).selD.length + (get_cfg c n).all_equal = npos c)
    ∧ (num_pos (get_cfg c n) ≤ 1 ↔ npos c ≤ 1) := by
  have hmain : (get_cfg c n).selL.length + (get_cfg c n).selM.length
      + 2 * (get_cfg c n).selD.length + (get_cfg c n).all_equal = npos c := by
    rw [get_cfg_selM, get_cfg_selL, get_cfg_selD, get_cfg_all_equal,
      ← List.countP_eq_length_filter, ← List.countP_eq_length_filter,
      ← List.countP_eq_length_filter, countP_range_sum, countP_range_sum,
      countP_range_sum]
    have hsum : (∑ k ∈ Finset.range n,
          if decide (coinType c k = C_LESS) then (1:Nat) else 0)
        + (∑ k ∈ Finset.range n,
          if decide (coinType c k = C_MORE) then (1:Nat) else 0)
        + 2 * (∑ k ∈ Finset.range n,
          if decide (coinType c k = C_DOUBLE) then (1:Nat) else 0)
        = ∑ k ∈ Finset.range n,
          (c.count ((k : Int) + 1) + c.count (-((k : Int) + 1))) := by
      rw [Finset.mul_sum, ← Finset.sum_add_distrib, ← Finset.sum_add_distrib]
      apply Finset.sum_congr rfl
      intro k hk
      have := coinType_weight c hnd k
      simp only [decide_eq_true_eq]
      omega
    rw [hsum, sum_counts c n huniv]
    have hz : c.count 0 = (if 0 < n ∧ (0 : Int) ∈ c then 1 else 0) := by
      by_cases h0 : (0 : Int) ∈ c
      · rw [List.count_eq_one_of_mem hnd h0, if_pos ⟨hn, h0⟩]
      · rw [List.count_eq_zero.mpr h0, if_neg (by tauto)]
    unfold npos
    have := countP_ne_zero_add_count_zero c
    omega
  refine ⟨hmain, ?_⟩
  unfold num_pos
  constructor <;> intro h' <;> omega

/-- Claim C10 witness: the accounting identity holds on the initial
3-coin universe. -/
theorem claim10_witness :
    ((get_cfg (new_coins 3) 3).selL.length + (get_cfg (new_coins 3) 3).selM.length
      + 2 * (get_cfg (new_coins 3) 3).selD.length
      + (get_cfg (new_coins 3) 3).all_equal = npos (new_coins 3))
    ∧ (num_pos (get_cfg (new_coins 3) 3) ≤ 1 ↔ npos (new_coins 3) ≤ 1) :=
  claim10_cfg_size (new_coins 3) 3 (by decide) (by decide) (by decide)

/-! ## Exact linear characterization of `get_nkl` -/

theorem get_nkl_c0_odd (p q : Int) (h3 : (p + q) % 3 = 0) (h2 : p % 2 = 1) :
    2 * (get_nkl p q).1 = p + 1 ∧
    3 * (get_nkl p q).2.1 = q - (get_nkl p q).1 + 2 ∧
    (get_nkl p q).2.2.1 = 2 * (get_nkl p q).1 + (get_nkl p q).2.1 - p - 2 ∧
    (get_nkl p q).2.2.2 = 2 := by
  simp only [get_nkl, if_pos h3, if_pos (show p % 2 ≠ 0 by omega)]
  have hd2 : (2 : Int) ∣ (p + 1) := by omega
  rw [Int.tdiv_eq_ediv_of_dvd hd2]
  have hd3 : (3 : Int) ∣ (q - (p + 1) / 2 + 2) := by omega
  rw [Int.tdiv_eq_ediv_of_dvd hd3]
  refine ⟨by omega, by omega, by trivial, by trivial⟩

theorem get_nkl_c0_even (p q : Int) (h3 : (p + q) % 3 = 0) (h2 : p % 2 = 0) :
    2 * (get_nkl p q).1 = p ∧
    3 * (get_nkl p q).2.1 = q - (get_nkl p q).1 ∧
    (get_nkl p q).2.2.1 = 2 * (get_nkl p q).1 + (get_nkl p q).2.1 - p ∧
    (get_nkl p q).2.2.2 = 0 := by
  simp only [get_nkl, if_pos h3, if_neg (show ¬ p % 2 ≠ 0 by omega)]
  have hd2 : (2 : Int) ∣ p := by omega
  rw [Int.tdiv_eq_ediv_of_dvd hd2]
  have hd3 : (3 : Int) ∣ (q - p / 2) := by omega
  rw [Int.tdiv_eq_ediv_of_dvd hd3]
  refine ⟨by omega, by omega, by omega, by trivial⟩

theorem get_nkl_c1_odd (p q : Int) (h3 : (p + q) % 3 = 1) (h2 : p % 2 = 1) :
    2 * (get_nkl p q).1 = p + 1 ∧
    3 * (get_nkl p q).2.1 = q - (get_nkl p q).1 + 1 ∧
    (get_nkl p q).2.2.1 = 2 * (get_nkl p q).1 + (get_nkl p q).2.1 - p - 1 ∧
    (get_nkl p q).2.2.2 = 1 := by
  simp only [get_nkl, if_neg (show ¬ (p + q) % 3 = 0 by omega), if_pos h3,
    if_pos (show p % 2 ≠ 0 by omega)]
  have hd2 : (2 : Int) ∣ (p + 1) := by omega
  rw [Int.tdiv_eq_ediv_of_dvd hd2]
  have hd3 : (3 : Int) ∣ (q - (p + 1) / 2 + 1) := by omega
  rw [Int.tdiv_eq_ediv_of_dvd hd3]
  refine ⟨by omega, by omega, by trivial, by trivial⟩

theorem get_nkl_c1_even (p q : Int) (h3 : (p + q) % 3 = 1) (h2 : p % 2 = 0) :
    2 * (get_nkl p q).1 = p ∧
    3 * (get_nkl p q).2.1 = q - (get_nkl p q).1 - 1 ∧
    (get_nkl p q).2.2.1 = 2 * (get_nkl p q).1 + (get_nkl p q).2.1 - p ∧
    (get_nkl p q).2.2.2 = 0 := by
  simp only [get_nkl, if_neg (show ¬ (p + q) % 3 = 0 by omega), if_pos h3,
    if_neg (show ¬ p % 2 ≠ 0 by omega)]
  have hd2 : (2 : Int) ∣ p := by omega
  rw [Int.tdiv_eq_ediv_of_dvd hd2]
  have hd3 : (3 : Int) ∣ (q - p / 2 - 1) := by omega
  rw [Int.tdiv_eq_ediv_of_dvd hd3]
  refine ⟨by omega, by omega, by omega, by trivial⟩

theorem get_nkl_c2_odd (p q : Int) (h3 : (p + q) % 3 = 2) (h2 : p % 2 = 1) :
    2 * (get_nkl p q).1 = p - 1 ∧
    3 * (get_nkl p q).2.1 = q - (get_nkl p q).1 - 1 ∧
    (get_nkl p q).2.2.1 = 2 * (get_nkl p q).1 + (get_nkl p q).2.1 - p + 1 ∧
    (get_nkl p q).2.2.2 = -1 := by
  simp only [get_nkl, if_neg (show ¬ (p + q) % 3 = 0 by omega),
    if_neg (show ¬ (p + q) % 3 = 1 by omega), if_pos (show p % 2 ≠ 0 by omega)]
  have hd2 : (2 : Int) ∣ (p - 1) := by omega
  rw [Int.tdiv_eq_ediv_of_dvd hd2]
  have hd3 : (3 : Int) ∣ (q - (p - 1) / 2 - 1) := by omega
  rw [Int.tdiv_eq_ediv_of_dvd hd3]
  refine ⟨by omega, by omega, by omega, by trivial⟩

theorem get_nkl_c2_even (p q : Int) (h3 : (p + q) % 3 = 2) (h2 : p % 2 = 0) :
    2 * (get_nkl p q).1 = p ∧
    3 * (get_nkl p q).2.1 = q - (get_nkl p q).1 + 1 ∧
    (get_nkl p q).2.2.1 = 2 * (get_nkl p q).1 + (get_nkl p q).2.1 - p ∧
    (get_nkl p q).2.2.2 = 0 := by
  simp only [get_nkl, if_neg (show ¬ (p + q) % 3 = 0 by omega),
    if_neg (show ¬ (p + q) % 3 = 1 by omega), if_neg (show ¬ p % 2 ≠ 0 by omega)]
  have hd2 : (2 : Int) ∣ p := by omega
  rw [Int.tdiv_eq_ediv_of_dvd hd2]
  have hd3 : (3 : Int) ∣ (q - p / 2 + 1) := by omega
  rw [Int.tdiv_eq_ediv_of_dvd hd3]
  refine ⟨by omega, by omega, by omega, by trivial⟩

/-- Consolidated bounds for a feasible `get_nkl` result on nonnegative
group sizes: the three outcome-set sizes `n1+k`, `q-n2-k`, `(p-n1)+n2`
are nonnegative, sum to `p+q`, pairwise differ by at most one, and each
is at most `(p+q+2)/3`; moreover `n1 ≤ p` and `n2 + k ≤ q`. -/
theorem get_nkl_sizes (p q : Int) (hp : 0 ≤ p) (hq : 0 ≤ q)
    (hf1 : 0 ≤ (get_nkl p q).1) (hf2 : 0 ≤ (get_nkl p q).2.1)
    (hfk : 0 ≤ (get_nkl p q).2.2.1) :
    (get_nkl p q).1 ≤ p ∧
    (get_nkl p q).2.1 + (get_nkl p q).2.2.1 ≤ q ∧
    ((get_nkl p q).1 + (get_nkl p q).2.2.1)
      + (q - (get_nkl p q).2.1 - (get_nkl p q).2.2.1)
      + ((p - (get_nkl p q).1) + (get_nkl p q).2.1) = p + q ∧
    3 * ((get_nkl p q).1 + (get_nkl p q).2.2.1) ≤ p + q + 2 ∧
    3 * (q - (get_nkl p q).2.1 - (get_nkl p q).2.2.1) ≤ p + q + 2 ∧
    3 * ((p - (get_nkl p q).1) + (get_nkl p q).2.1) ≤ p + q + 2 ∧
    ((get_nkl p q).1 + (get_nkl p q).2.2.1)
      - (q - (get_nkl p q).2.1 - (get_nkl p q).2.2.1) ≤ 1 ∧
    (q - (get_nkl p q).2.1 - (get_nkl p q).2.2.1)
      - ((get_nkl p q).1 + (get_nkl p q).2.2.1) ≤ 1 ∧
    ((get_nkl p q).1 + (get_nkl p q).2.2.1)
      - ((p - (get_nkl p q).1) + (get_nkl p q).2.1) ≤ 1 ∧
    ((p - (get_nkl p q).1) + (get_nkl p q).2.1)
      - ((get_nkl p q).1 + (get_nkl p q).2.2.1) ≤ 1 ∧
    (q - (get_nkl p q).2.1 - (get_nkl p q).2.2.1)
      - ((p - (get_nkl p q).1) + (get_nkl p q).2.1) ≤ 1 ∧
    ((p - (get_nkl p q).1) + (get_nkl p q).2.1)
      - (q - (get_nkl p q).2.1 - (get_nkl p q).2.2.1) ≤ 1 := by
  have h3 : (p + q) % 3 = 0 ∨ (p + q) % 3 = 1 ∨ (p + q) % 3 = 2 := by omega
  have h2 : p % 2 = 0 ∨ p % 2 = 1 := by omega
  rcases h3 with h3 | h3 | h3 <;> rcases h2 with h2 | h2
  · have := get_nkl_c0_even p q h3 h2
    refine ⟨by omega, by omega, by omega, by omega, by omega, by omega,
      by omega, by omega, by omega, by omega, by omega, by omega⟩
  · have := get_nkl_c0_odd p q h3 h2
    refine ⟨by omega, by omega, by omega, by omega, by omega, by omega,
      by omega, by omega, by omega, by omega, by omega, by omega⟩
  · have := get_nkl_c1_even p q h3 h2
    refine ⟨by omega, by omega, by omega, by omega, by omega, by omega,
      by omega, by omega, by omega, by omega, by omega, by omega⟩
  · have := get_nkl_c1_odd p q h3 h2
    refine ⟨by omega, by omega, by omega, by omega, by omega, by omega,
      by omega, by omega, by omega, by omega, by omega, by omega⟩
  · have := get_nkl_c2_even p q h3 h2
    refine ⟨by omega, by omega, by omega, by omega, by omega, by omega,
      by omega, by omega, by omega, by omega, by omega, by omega⟩
  · have := get_nkl_c2_odd p q h3 h2
    refine ⟨by omega, by omega, by omega, by omega, by omega, by omega,
      by omega, by omega, by omega, by omega, by omega, by omega⟩

/-! ## Evaluating `sum` and `outcome` on single hypotheses -/

theorem sum_of_pos (j : Nat) (s : List Nat) :
    sum ((j : Int) + 1) s = if j ∈ s then 1 else 0 := by
  induction s with
  | nil => simp [sum]
  | cons x rest ih =>
    by_cases hx : j = x
    · subst hx
      rw [sum, if_pos ⟨by omega, by omega⟩, if_pos (List.mem_cons_self j rest)]
    · rw [sum, if_neg (by omega : ¬(0 < (j : Int) + 1 ∧ (j : Int) + 1 - 1 = (x : Int))),
        if_neg (by omega : ¬((j : Int) + 1 < 0 ∧ -((j : Int) + 1) - 1 = (x : Int))), ih]
      by_cases hm : j ∈ rest
      · rw [if_pos hm, if_pos (List.mem_cons_of_mem _ hm)]
      · rw [if_neg hm, if_neg (by simp [List.mem_cons, hx, hm])]

theorem sum_of_neg (j : Nat) (s : List Nat) :
    sum (-((j : Int) + 1)) s = if j ∈ s then -1 else 0 := by
  induction s with
  | nil => simp [sum]
  | cons x rest ih =>
    by_cases hx : j = x
    · subst hx
      rw [sum, if_neg (by omega : ¬(0 < -((j : Int) + 1) ∧ -((j : Int) + 1) - 1 = (j : Int))),
        if_pos ⟨by omega, by omega⟩, if_pos (List.mem_cons_self j rest)]
    · rw [sum, if_neg (by omega : ¬(0 < -((j : Int) + 1) ∧ -((j : Int) + 1) - 1 = (x : Int))),
        if_neg (by omega : ¬(-((j : Int) + 1) < 0 ∧ -(-((j : Int) + 1)) - 1 = (x : Int))), ih]
      by_cases hm : j ∈ rest
      · rw [if_pos hm, if_pos (List.mem_cons_of_mem _ hm)]
      · rw [if_neg hm, if_neg (by simp [List.mem_cons, hx, hm])]

theorem sum_zero (s : List Nat) : sum 0 s = 0 := by
  induction s with
  | nil => rfl
  | cons x rest ih =>
    rw [sum, if_neg (by omega : ¬((0 : Int) < 0 ∧ (0 : Int) - 1 = (x : Int))),
      if_neg (by omega : ¬((0 : Int) < 0 ∧ -(0 : Int) - 1 = (x : Int))), ih]

theorem sum_neg_arg (x : Int) (s : List Nat) : sum (-x) s = -(sum x s) := by
  induction s with
  | nil => simp [sum]
  | cons e rest ih =>
    rw [sum, sum]
    by_cases h1 : 0 < x ∧ x - 1 = (e : Int)
    · rw [if_pos h1, if_neg (by omega : ¬(0 < -x ∧ -x - 1 = (e : Int))),
        if_pos (by omega : -x < 0 ∧ -(-x) - 1 = (e : Int))]
    · by_cases h2 : x < 0 ∧ -x - 1 = (e : Int)
      · rw [if_neg h1, if_pos h2, if_pos (by omega : 0 < -x ∧ -x - 1 = (e : Int))]
        norm_num
      · rw [if_neg h1, if_neg h2,
          if_neg (by omega : ¬(0 < -x ∧ -x - 1 = (e : Int))),
          if_neg (by omega : ¬(-x < 0 ∧ -(-x) - 1 = (e : Int))), ih]

theorem outcome_zero (s1 s2 : List Nat) : outcome s1 s2 0 = C_EQUAL := by
  unfold outcome
  rw [sum_zero, sum_zero]
  rfl

theorem outcome_pos_left (j : Nat) (s1 s2 : List Nat)
    (h1 : j ∈ s1) (h2 : j ∉ s2) :
    outcome s1 s2 ((j : Int) + 1) = C_MORE := by
  unfold outcome balance
  rw [sum_of_pos, sum_of_pos, if_pos h1, if_neg h2]
  norm_num

theorem outcome_pos_right (j : Nat) (s1 s2 : List Nat)
    (h1 : j ∉ s1) (h2 : j ∈ s2) :
    outcome s1 s2 ((j : Int) + 1) = C_LESS := by
  unfold outcome balance
  rw [sum_of_pos, sum_of_pos, if_neg h1, if_pos h2]
  norm_num

theorem outcome_pos_off (j : Nat) (s1 s2 : List Nat)
    (h1 : j ∉ s1) (h2 : j ∉ s2) :
    outcome s1 s2 ((j : Int) + 1) = C_EQUAL := by
  unfold outcome balance
  rw [sum_of_pos, sum_of_pos, if_neg h1, if_neg h2]
  norm_num

theorem outcome_neg_left (j : Nat) (s1 s2 : List Nat)
    (h1 : j ∈ s1) (h2 : j ∉ s2) :
    outcome s1 s2 (-((j : Int) + 1)) = C_LESS := by
  unfold outcome balance
  rw [sum_of_neg, sum_of_neg, if_pos h1, if_neg h2]
  norm_num

theorem outcome_neg_right (j : Nat) (s1 s2 : List Nat)
    (h1 : j ∉ s1) (h2 : j ∈ s2) :
    outcome s1 s2 (-((j : Int) + 1)) = C_MORE := by
  unfold outcome balance
  rw [sum_of_neg, sum_of_neg, if_neg h1, if_pos h2]
  norm_num

theorem outcome_neg_off (j : Nat) (s1 s2 : List Nat)
    (h1 : j ∉ s1) (h2 : j ∉ s2) :
    outcome s1 s2 (-((j : Int) + 1)) = C_EQUAL := by
  unfold outcome balance
  rw [sum_of_neg, sum_of_neg, if_neg h1, if_neg h2]
  norm_num

/-! ## Counting the outcome-set sizes of a type-B weighing -/

theorem countP_map_all (p : Int → Bool) (f : Nat → Int) (T : List Nat)
    (h : ∀ j ∈ T, p (f j) = true) : (T.map f).countP p = T.length := by
  have h2 : (T.map f).countP p = (T.map f).length := by
    rw [List.countP_eq_length]
    intro a ha
    rcases List.mem_map.mp ha with ⟨j, hj, rfl⟩
    exact h j hj
  rw [h2, List.length_map]

theorem countP_map_none (p : Int → Bool) (f : Nat → Int) (T : List Nat)
    (h : ∀ j ∈ T, p (f j) = false) : (T.map f).countP p = 0 := by
  rw [List.countP_eq_zero]
  intro a ha
  rcases List.mem_map.mp ha with ⟨j, hj, rfl⟩
  simp [h j hj]

/-- The heavy hypothesis of coin `j` (0-based index). -/
def hypP (j : Nat) : Int := (j : Int) + 1

/-- The light hypothesis of coin `j` (0-based index). -/
def hypN (j : Nat) : Int := -((j : Int) + 1)

/-- Sizes of the three outcome sets for a type-B selection: `n1` MORE
coins and `n2` LESS coins on the left pan, the other MORE coins plus `k`
LESS coins on the right pan, any EQUAL coins used for padding.  The
LEFT_HEAVY set has `n1 + k` hypotheses, the BALANCED set `q - n2 - k`,
the RIGHT_HEAVY set `(p - n1) + n2`. -/
theorem weighB_sizes (c : List Int) (M L E1 E2 : List Nat) (n1 n2 kk : Nat)
    (hM : M.Nodup) (hL : L.Nodup) (hML : ∀ j ∈ M, j ∉ L)
    (hE1 : ∀ j ∈ E1, j ∉ M ∧ j ∉ L) (hE2 : ∀ j ∈ E2, j ∉ M ∧ j ∉ L)
    (hperm : c.Perm (M.map hypP ++ L.map hypN))
    (hn1 : n1 ≤ M.length) (hn2k : n2 + kk ≤ L.length) :
    npos (weigh c (M.take n1 ++ (L.take n2 ++ E1))
        (M.drop n1 ++ ((L.drop n2).take kk ++ E2))).2.1 = n1 + kk ∧
    npos (weigh c (M.take n1 ++ (L.take n2 ++ E1))
        (M.drop n1 ++ ((L.drop n2).take kk ++ E2))).1 = L.length - (n2 + kk) ∧
    npos (weigh c (M.take n1 ++ (L.take n2 ++ E1))
        (M.drop n1 ++ ((L.drop n2).take kk ++ E2))).2.2
      = (M.length - n1) + n2 := by
  have hMtd : List.Disjoint (M.take n1) (M.drop n1) :=
    List.disjoint_take_drop hM (le_refl n1)
  have hLtd : List.Disjoint (L.take n2) (L.drop n2) :=
    List.disjoint_take_drop hL (le_refl n2)
  have hLdn : (L.drop n2).Nodup := hL.sublist (List.drop_sublist n2 L)
  have hLdtd : List.Disjoint ((L.drop n2).take kk) ((L.drop n2).drop kk) :=
    List.disjoint_take_drop hLdn (le_refl kk)
  -- outcome of each block of coins
  have hb1 : ∀ j ∈ M.take n1,
      outcome (M.take n1 ++ (L.take n2 ++ E1))
        (M.drop n1 ++ ((L.drop n2).take kk ++ E2)) (hypP j) = C_MORE := by
    intro j hj
    apply outcome_pos_left
    · exact List.mem_append_left _ hj
    · intro hmem
      have hjM : j ∈ M := List.mem_of_mem_take hj
      rcases List.mem_append.mp hmem with h' | h'
      · exact hMtd hj h'
      · rcases List.mem_append.mp h' with h'' | h''
        · exact hML j hjM (List.mem_of_mem_drop (List.mem_of_mem_take h''))
        · exact (hE2 j h'').1 hjM
  have hb2 : ∀ j ∈ M.drop n1,
      outcome (M.take n1 ++ (L.take n2 ++ E1))
        (M.drop n1 ++ ((L.drop n2).take kk ++ E2)) (hypP j) = C_LESS := by
    intro j hj
    apply outcome_pos_right
    · intro hmem
      have hjM : j ∈ M := List.mem_of_mem_drop hj
      rcases List.mem_append.mp hmem with h' | h'
      · exact hMtd h' hj
      · rcases List.mem_append.mp h' with h'' | h''
        · exact hML j hjM (List.mem_of_mem_take h'')
        · exact (hE1 j h'').1 hjM
    · exact List.mem_append_left _ hj
  have hb3 : ∀ j ∈ L.take n2,
      outcome (M.take n1 ++ (L.take n2 ++ E1))
        (M.drop n1 ++ ((L.drop n2).take kk ++ E2)) (hypN j) = C_LESS := by
    intro j hj
    apply outcome_neg_left
    · exact List.mem_append_right _ (List.mem_append_left _ hj)
    · intro hmem
      have hjL : j ∈ L := List.mem_of_mem_take hj
      rcases List.mem_append.mp hmem with h' | h'
      · exact hML j (List.mem_of_mem_drop h') hjL
      · rcases List.mem_append.mp h' with h'' | h''
        · exact hLtd hj (List.mem_of_mem_take h'')
        · exact (hE2 j h'').2 hjL
  have hb4 : ∀ j ∈ (L.drop n2).take kk,
      outcome (M.take n1 ++ (L.take n2 ++ E1))
        (M.drop n1 ++ ((L.drop n2).take kk ++ E2)) (hypN j) = C_MORE := by
    intro j hj
    apply outcome_neg_right
    · intro hmem
      have hjL : j ∈ L := List.mem_of_mem_drop (List.mem_of_mem_take hj)
      rcases List.mem_append.mp hmem with h' | h'
      · exact hML j (List.mem_of_mem_take h') hjL
      · rcases List.mem_append.mp h' with h'' | h''
        · exact hLtd h'' (List.mem_of_mem_take hj)
        · exact (hE1 j h'').2 hjL
    · exact List.mem_append_right _ (List.mem_append_left _ hj)
  have hb5 : ∀ j ∈ (L.drop n2).drop kk,
      outcome (M.take n1 ++ (L.take n2 ++ E1))
        (M.drop n1 ++ ((L.drop n2).take kk ++ E2)) (hypN j) = C_EQUAL := by
    intro j hj
    have hjL : j ∈ L := List.mem_of_mem_drop (List.mem_of_mem_drop hj)
    apply outcome_neg_off
    · intro hmem
      rcases List.mem_append.mp hmem with h' | h'
      · exact hML j (List.mem_of_mem_take h') hjL
      · rcases List.mem_append.mp h' with h'' | h''
        · exact hLtd h'' (List.mem_of_mem_drop hj)
        · exact (hE1 j h'').2 hjL
    · intro hmem
      rcases List.mem_append.mp hmem with h' | h'
      · exact hML j (List.mem_of_mem_drop h') hjL
      · rcases List.mem_append.mp h' with h'' | h''
        · exact hLdtd h'' hj
        · exact (hE2 j h'').2 hjL
  -- decomposition of the two mapped groups
  have hMdec : M.map hypP =
      (M.take n1).map hypP ++ (M.drop n1).map hypP := by
    rw [← List.map_append, List.take_append_drop]
  have hLdec : L.map hypN =
      (L.take n2).map hypN
        ++ (((L.drop n2).take kk).map hypN
          ++ ((L.drop n2).drop kk).map hypN) := by
    rw [← List.map_append, List.take_append_drop, ← List.map_append,
      List.take_append_drop]
  have hlen1 : (M.take n1).length = n1 := by
    rw [List.length_take]; omega
  have hlen2 : (M.drop n1).length = M.length - n1 := by
    rw [List.length_drop]
  have hlen3 : (L.take n2).length = n2 := by
    rw [List.length_take]; omega
  have hlen4 : ((L.drop n2).take kk).length = kk := by
    rw [List.length_take, List.length_drop]; omega
  have hlen5 : ((L.drop n2).drop kk).length = L.length - (n2 + kk) := by
    rw [List.length_drop, List.length_drop]; omega
  refine ⟨?_, ?_, ?_⟩
  · show (List.filter _ c).length = _
    rw [← List.countP_eq_length_filter, hperm.countP_eq, List.countP_append,
      hMdec, hLdec, List.countP_append, List.countP_append, List.countP_append]
    rw [countP_map_all _ _ _ (fun j hj => by
        simp only [decide_eq_true_eq]; exact hb1 j hj),
      countP_map_none _ _ _ (fun j hj => by
        simp only [decide_eq_false_iff_not]
        rw [hb2 j hj]; simp [C_MORE, C_LESS]),
      countP_map_none _ _ _ (fun j hj => by
        simp only [decide_eq_false_iff_not]
        rw [hb3 j hj]; simp [C_MORE, C_LESS]),
      countP_map_all _ _ _ (fun j hj => by
        simp only [decide_eq_true_eq]; exact hb4 j hj),
      countP_map_none _ _ _ (fun j hj => by
        simp only [decide_eq_false_iff_not]
        rw [hb5 j hj]; simp [C_MORE, C_EQUAL]),
      hlen1, hlen4]
    omega
  · show (List.filter _ c).length = _
    rw [← List.countP_eq_length_filter, hperm.countP_eq, List.countP_append,
      hMdec, hLdec, List.countP_append, List.countP_append, List.countP_append]
    rw [countP_map_none _ _ _ (fun j hj => by
        simp only [decide_eq_false_iff_not]
        rw [hb1 j hj]; simp [C_MORE, C_EQUAL]),
      countP_map_none _ _ _ (fun j hj => by
        simp only [decide_eq_false_iff_not]
        rw [hb2 j hj]; simp [C_LESS, C_EQUAL]),
      countP_map_none _ _ _ (fun j hj => by
        simp only [decide_eq_false_iff_not]
        rw [hb3 j hj]; simp [C_LESS, C_EQUAL]),
      countP_map_none _ _ _ (fun j hj => by
        simp only [decide_eq_false_iff_not]
        rw [hb4 j hj]; simp [C_MORE, C_EQUAL]),
      countP_map_all _ _ _ (fun j hj => by
        simp only [decide_eq_true_eq]; exact hb5 j hj),
      hlen5]
    omega
  · show (List.filter _ c).length = _
    rw [← List.countP_eq_length_filter, hperm.countP_eq, List.countP_append,
      hMdec, hLdec, List.countP_append, List.countP_append, List.countP_append]
    rw [countP_map_none _ _ _ (fun j hj => by
        simp only [decide_eq_false_iff_not]
        rw [hb1 j hj]; simp [C_MORE, C_LESS]),
      countP_map_all _ _ _ (fun j hj => by
        simp only [decide_eq_true_eq]; exact hb2 j hj),
      countP_map_all _ _ _ (fun j hj => by
        simp only [decide_eq_true_eq]; exact hb3 j hj),
      countP_map_none _ _ _ (fun j hj => by
        simp only [decide_eq_false_iff_not]
        rw [hb4 j hj]; simp [C_MORE, C_LESS]),
      countP_map_none _ _ _ (fun j hj => by
        simp only [decide_eq_false_iff_not]
        rw [hb5 j hj]; simp [C_LESS, C_EQUAL]),
      hlen2, hlen3]
    omega

/-! ## A type-B possibility set is its configuration's hypotheses -/

theorem selM_nodup (c : List Int) (n : Nat) : (get_cfg c n).selM.Nodup := by
  rw [get_cfg_selM]
  exact (List.nodup_range n).filter _

theorem selL_nodup (c : List Int) (n : Nat) : (get_cfg c n).selL.Nodup := by
  rw [get_cfg_selL]
  exact (List.nodup_range n).filter _

theorem selD_nodup (c : List Int) (n : Nat) : (get_cfg c n).selD.Nodup := by
  rw [get_cfg_selD]
  exact (List.nodup_range n).filter _

theorem mem_selM_iff (c : List Int) (n : Nat) (j : Nat) :
    j ∈ (get_cfg c n).selM ↔ j < n ∧ coinType c j = C_MORE := by
  rw [get_cfg_selM, List.mem_filter, List.mem_range]
  simp

theorem mem_selL_iff (c : List Int) (n : Nat) (j : Nat) :
    j ∈ (get_cfg c n).selL ↔ j < n ∧ coinType c j = C_LESS := by
  rw [get_cfg_selL, List.mem_filter, List.mem_range]
  simp

theorem mem_selD_iff (c : List Int) (n : Nat) (j : Nat) :
    j ∈ (get_cfg c n).selD ↔ j < n ∧ coinType c j = C_DOUBLE := by
  rw [get_cfg_selD, List.mem_filter, List.mem_range]
  simp

theorem mem_selE_iff (c : List Int) (n : Nat) (j : Nat) :
    j ∈ (get_cfg c n).selE ↔ j < n ∧ coinType c j = C_EQUAL := by
  rw [get_cfg_selE, List.mem_filter, List.mem_range]
  simp

theorem selM_selL_disjoint (c : List Int) (n : Nat) :
    ∀ j ∈ (get_cfg c n).selM, j ∉ (get_cfg c n).selL := by
  intro j hjM hjL
  rw [mem_selM_iff] at hjM
  rw [mem_selL_iff] at hjL
  rw [hjM.2] at hjL
  exact absurd hjL.2 (by simp [C_MORE, C_LESS])

theorem selE_not_selM_selL (c : List Int) (n : Nat) :
    ∀ j ∈ (get_cfg c n).selE, j ∉ (get_cfg c n).selM ∧ j ∉ (get_cfg c n).selL := by
  intro j hjE
  rw [mem_selE_iff] at hjE
  constructor
  · intro hjM
    rw [mem_selM_iff] at hjM
    rw [hjE.2] at hjM
    exact absurd hjM.2 (by simp [C_MORE, C_EQUAL])
  · intro hjL
    rw [mem_selL_iff] at hjL
    rw [hjE.2] at hjL
    exact absurd hjL.2 (by simp [C_LESS, C_EQUAL])

/-- A possibility set whose configuration has no DOUBLE coin and
`all_equal = 0` consists exactly of the heavy hypotheses of its MORE
coins and the light hypotheses of its LESS coins. -/
theorem typeB_perm (c : List Int) (n : Nat) (hnd : c.Nodup)
    (huniv : ∀ x ∈ c, x = 0 ∨ (1 ≤ x.natAbs ∧ x.natAbs ≤ n)) (hn : 0 < n)
    (hD : (get_cfg c n).selD = []) (hA : (get_cfg c n).all_equal = 0) :
    c.Perm ((get_cfg c n).selM.map hypP ++ (get_cfg c n).selL.map hypN) := by
  have h0 : (0 : Int) ∉ c := by
    intro h0c
    rw [get_cfg_all_equal, if_pos ⟨hn, h0c⟩] at hA
    exact absurd hA one_ne_zero
  have hinjP : Function.Injective hypP := by
    intro a b hab
    unfold hypP at hab
    omega
  have hinjN : Function.Injective hypN := by
    intro a b hab
    unfold hypN at hab
    omega
  have hrnd : ((get_cfg c n).selM.map hypP ++ (get_cfg c n).selL.map hypN).Nodup := by
    rw [List.nodup_append]
    refine ⟨(selM_nodup c n).map hinjP, (selL_nodup c n).map hinjN, ?_⟩
    intro a haM haL
    rcases List.mem_map.mp haM with ⟨j, _, rfl⟩
    rcases List.mem_map.mp haL with ⟨i, _, hia⟩
    unfold hypP at hia
    unfold hypN at hia
    omega
  rw [List.perm_ext_iff_of_nodup hnd hrnd]
  intro a
  constructor
  · intro hac
    rcases huniv a hac with h' | h'
    · exact absurd (h' ▸ hac) h0
    · rcases lt_trichotomy a 0 with hlt | heq | hgt
      · set j := a.natAbs - 1 with hj
        have ha : a = hypN j := by unfold hypN; omega
        have hjn : j < n := by omega
        have hmem : hypN j ∈ c := ha ▸ hac
        have hnc : (-((j : Int) + 1)) ∈ c := hmem
        apply List.mem_append_right
        apply List.mem_map.mpr
        refine ⟨j, ?_, ha.symm⟩
        rw [mem_selL_iff]
        refine ⟨hjn, ?_⟩
        by_cases hpc : ((j : Int) + 1) ∈ c
        · exfalso
          have := coinType_eq_double c hnd j hpc hnc
          have hjD : j ∈ (get_cfg c n).selD := (mem_selD_iff c n j).mpr ⟨hjn, this⟩
          rw [hD] at hjD
          exact absurd hjD (List.not_mem_nil j)
        · exact coinType_eq_less c hnd j hpc hnc
      · omega
      · set j := a.natAbs - 1 with hj
        have ha : a = hypP j := by unfold hypP; omega
        have hjn : j < n := by omega
        have hpc : ((j : Int) + 1) ∈ c := by
          have : hypP j ∈ c := ha ▸ hac
          exact this
        apply List.mem_append_left
        apply List.mem_map.mpr
        refine ⟨j, ?_, ha.symm⟩
        rw [mem_selM_iff]
        refine ⟨hjn, ?_⟩
        by_cases hnc : (-((j : Int) + 1)) ∈ c
        · exfalso
          have := coinType_eq_double c hnd j hpc hnc
          have hjD : j ∈ (get_cfg c n).selD := (mem_selD_iff c n j).mpr ⟨hjn, this⟩
          rw [hD] at hjD
          exact absurd hjD (List.not_mem_nil j)
        · exact coinType_eq_more c hnd j hpc hnc
  · intro ha
    rcases List.mem_append.mp ha with h' | h'
    · rcases List.mem_map.mp h' with ⟨j, hj, rfl⟩
      have := ((mem_selM_iff c n j).mp hj).2
      exact coinType_more_mem c j this
    · rcases List.mem_map.mp h' with ⟨j, hj, rfl⟩
      have := ((mem_selL_iff c n j).mp hj).2
      exact coinType_less_mem c j this

/-! ## Mirroring a weighing under hypothesis negation -/

theorem outcome_neg_flip (s1 s2 : List Nat) (x : Int) :
    (outcome s1 s2 (-x) = C_MORE ↔ outcome s1 s2 x = C_LESS) ∧
    (outcome s1 s2 (-x) = C_EQUAL ↔ outcome s1 s2 x = C_EQUAL) ∧
    (outcome s1 s2 (-x) = C_LESS ↔ outcome s1 s2 x = C_MORE) := by
  unfold outcome
  rw [sum_neg_arg, sum_neg_arg]
  unfold balance
  rcases lt_trichotomy (sum x s1) (sum x s2) with h | h | h
  · rw [if_pos h, if_neg (by omega : ¬ -sum x s1 < -sum x s2),
      if_neg (by omega : ¬ -sum x s1 = -sum x s2)]
    simp [C_MORE, C_LESS, C_EQUAL]
  · rw [if_neg (by omega : ¬ sum x s1 < sum x s2), if_pos h,
      if_neg (by omega : ¬ -sum x s1 < -sum x s2),
      if_pos (by omega : -sum x s1 = -sum x s2)]
    simp [C_MORE, C_LESS, C_EQUAL]
  · rw [if_neg (by omega : ¬ sum x s1 < sum x s2),
      if_neg (by omega : ¬ sum x s1 = sum x s2),
      if_pos (by omega : -sum x s1 < -sum x s2)]
    simp [C_MORE, C_LESS, C_EQUAL]

theorem weigh_neg_sizes (c : List Int) (s1 s2 : List Nat) :
    npos (weigh (c.map (fun x => -x)) s1 s2).1 = npos (weigh c s1 s2).1 ∧
    npos (weigh (c.map (fun x => -x)) s1 s2).2.1 = npos (weigh c s1 s2).2.2 ∧
    npos (weigh (c.map (fun x => -x)) s1 s2).2.2 = npos (weigh c s1 s2).2.1 := by
  refine ⟨?_, ?_, ?_⟩
  · show (List.filter _ _).length = (List.filter _ _).length
    rw [← List.countP_eq_length_filter, ← List.countP_eq_length_filter,
      List.countP_map]
    apply List.countP_congr
    intro x _
    simp only [Function.comp_apply, decide_eq_true_eq]
    exact (outcome_neg_flip s1 s2 x).2.1
  · show (List.filter _ _).length = (List.filter _ _).length
    rw [← List.countP_eq_length_filter, ← List.countP_eq_length_filter,
      List.countP_map]
    apply List.countP_congr
    intro x _
    simp only [Function.comp_apply, decide_eq_true_eq]
    exact (outcome_neg_flip s1 s2 x).1
  · show (List.filter _ _).length = (List.filter _ _).length
    rw [← List.countP_eq_length_filter, ← List.countP_eq_length_filter,
      List.countP_map]
    apply List.countP_congr
    intro x _
    simp only [Function.comp_apply, decide_eq_true_eq]
    exact (outcome_neg_flip s1 s2 x).2.2

theorem switch_selM (cfg : coin_cfg) :
    (switch_more_less cfg).selM = cfg.selL := rfl

theorem switch_selL (cfg : coin_cfg) :
    (switch_more_less cfg).selL = cfg.selM := rfl

theorem switch_selE (cfg : coin_cfg) :
    (switch_more_less cfg).selE = cfg.selE := rfl

/-- The outcome sizes of any selection produced by `get_sel_B` on a
type-B configuration: they sum to `p + q`, each is at most
`(p + q + 2) / 3`, and they pairwise differ by at most one. -/
theorem selB_bounds (c : List Int) (n : Nat) (hnd : c.Nodup)
    (huniv : ∀ x ∈ c, x = 0 ∨ (1 ≤ x.natAbs ∧ x.natAbs ≤ n)) (hn : 0 < n)
    (hD : (get_cfg c n).selD = []) (hA : (get_cfg c n).all_equal = 0)
    (s1 s2 : List Nat) (hsel : get_sel_B (get_cfg c n) = some (s1, s2)) :
    npos (weigh c s1 s2).2.1 + npos (weigh c s1 s2).1 + npos (weigh c s1 s2).2.2
      = (get_cfg c n).selM.length + (get_cfg c n).selL.length ∧
    3 * npos (weigh c s1 s2).2.1
      ≤ (get_cfg c n).selM.length + (get_cfg c n).selL.length + 2 ∧
    3 * npos (weigh c s1 s2).1
      ≤ (get_cfg c n).selM.length + (get_cfg c n).selL.length + 2 ∧
    3 * npos (weigh c s1 s2).2.2
      ≤ (get_cfg c n).selM.length + (get_cfg c n).selL.length + 2 ∧
    npos (weigh c s1 s2).2.1 ≤ npos (weigh c s1 s2).1 + 1 ∧
    npos (weigh c s1 s2).1 ≤ npos (weigh c s1 s2).2.1 + 1 ∧
    npos (weigh c s1 s2).2.1 ≤ npos (weigh c s1 s2).2.2 + 1 ∧
    npos (weigh c s1 s2).2.2 ≤ npos (weigh c s1 s2).2.1 + 1 ∧
    npos (weigh c s1 s2).1 ≤ npos (weigh c s1 s2).2.2 + 1 ∧
    npos (weigh c s1 s2).2.2 ≤ npos (weigh c s1 s2).1 + 1 := by
  have hperm := typeB_perm c n hnd huniv hn hD hA
  set cfg := get_cfg c n with hcfg
  set p := cfg.selM.length with hp
  set q := cfg.selL.length with hq
  have hML : ∀ j ∈ cfg.selM, j ∉ cfg.selL := selM_selL_disjoint c n
  have hLM : ∀ j ∈ cfg.selL, j ∉ cfg.selM := by
    intro j hjL hjM
    exact hML j hjM hjL
  unfold get_sel_B at hsel
  by_cases hfeas : (get_nkl p q).1 < 0 ∨ (get_nkl p q).2.1 < 0 ∨
      (get_nkl p q).2.2.1 < 0
  · -- first orientation infeasible: the swapped one was used
    rw [if_pos hfeas] at hsel
    simp only [switch_selM, switch_selL] at hsel
    rw [← hp, ← hq] at hsel
    by_cases hfeas2 : (get_nkl q p).1 < 0 ∨ (get_nkl q p).2.1 < 0 ∨
        (get_nkl q p).2.2.1 < 0
    · rw [if_pos hfeas2] at hsel
      exact absurd hsel (by simp)
    · rw [if_neg hfeas2] at hsel
      have hs : sel_from_nkl (switch_more_less cfg) (get_nkl q p) = (s1, s2) :=
        Option.some.inj hsel
      push_neg at hfeas2
      have hsz := get_nkl_sizes q p (Int.natCast_nonneg q) (Int.natCast_nonneg p)
        hfeas2.1 hfeas2.2.1 hfeas2.2.2
      set n1 := (get_nkl q p).1.toNat with hn1def
      set n2 := (get_nkl q p).2.1.toNat with hn2def
      set kk := (get_nkl q p).2.2.1.toNat with hkkdef
      have hs1 : s1 = cfg.selL.take n1 ++ (cfg.selM.take n2
          ++ (if (get_nkl q p).2.2.2 < 0 then cfg.selE.take 1 else [])) := by
        have := congrArg Prod.fst hs
        simp only [sel_from_nkl, switch_selM, switch_selL, switch_selE] at this
        rw [← this, List.append_assoc]
      have hs2 : s2 = cfg.selL.drop n1 ++ ((cfg.selM.drop n2).take kk
          ++ (if 0 < (get_nkl q p).2.2.2 then
                cfg.selE.take (get_nkl q p).2.2.2.toNat else [])) := by
        have := congrArg Prod.snd hs
        simp only [sel_from_nkl, switch_selM, switch_selL, switch_selE] at this
        rw [← this, List.append_assoc]
      have hperm2 : (c.map (fun x => -x)).Perm
          (cfg.selL.map hypP ++ cfg.selM.map hypN) := by
        have h1 := hperm.map (fun x => -x)
        rw [List.map_append, List.map_map, List.map_map] at h1
        have e1 : ((fun x => -x) ∘ hypP) = hypN := by
          funext j; simp [hypP, hypN]
        have e2 : ((fun x => -x) ∘ hypN) = hypP := by
          funext j; simp [hypP, hypN]
        rw [e1, e2] at h1
        exact h1.trans List.perm_append_comm
      have hE1 : ∀ j ∈ (if (get_nkl q p).2.2.2 < 0 then cfg.selE.take 1 else []),
          j ∉ cfg.selL ∧ j ∉ cfg.selM := by
        intro j hj
        by_cases hl : (get_nkl q p).2.2.2 < 0
        · rw [if_pos hl] at hj
          have := selE_not_selM_selL c n j (List.mem_of_mem_take hj)
          exact ⟨this.2, this.1⟩
        · rw [if_neg hl] at hj
          exact absurd hj (List.not_mem_nil j)
      have hE2 : ∀ j ∈ (if 0 < (get_nkl q p).2.2.2 then
            cfg.selE.take (get_nkl q p).2.2.2.toNat else []),
          j ∉ cfg.selL ∧ j ∉ cfg.selM := by
        intro j hj
        by_cases hl : 0 < (get_nkl q p).2.2.2
        · rw [if_pos hl] at hj
          have := selE_not_selM_selL c n j (List.mem_of_mem_take hj)
          exact ⟨this.2, this.1⟩
        · rw [if_neg hl] at hj
          exact absurd hj (List.not_mem_nil j)
      have hb1 : n1 ≤ cfg.selL.length := by
        have := hsz.1
        omega
      have hb2 : n2 + kk ≤ cfg.selM.length := by
        have := hsz.2.1
        omega
      have hw := weighB_sizes (c.map (fun x => -x)) cfg.selL cfg.selM _ _ n1 n2 kk
        (selL_nodup c n) (selM_nodup c n) hLM hE1 hE2 hperm2 hb1 hb2
      rw [← hs1, ← hs2] at hw
      have hflip := weigh_neg_sizes c s1 s2
      have e1 : npos (weigh c s1 s2).2.2 = n1 + kk := by
        rw [← hflip.2.1]; exact hw.1
      have e2 : npos (weigh c s1 s2).1 = cfg.selM.length - (n2 + kk) := by
        rw [← hflip.1]; exact hw.2.1
      have e3 : npos (weigh c s1 s2).2.1 = (cfg.selL.length - n1) + n2 := by
        rw [← hflip.2.2]; exact hw.2.2
      rw [e1, e2, e3]
      have hsum := hsz.2.2.1
      have h3a := hsz.2.2.2.1
      have h3b := hsz.2.2.2.2.1
      have h3c := hsz.2.2.2.2.2.1
      omega
  · rw [if_neg hfeas] at hsel
    have hs : sel_from_nkl cfg (get_nkl p q) = (s1, s2) :=
      Option.some.inj hsel
    push_neg at hfeas
    have hsz := get_nkl_sizes p q (Int.natCast_nonneg p) (Int.natCast_nonneg q)
      hfeas.1 hfeas.2.1 hfeas.2.2
    set n1 := (get_nkl p q).1.toNat with hn1def
    set n2 := (get_nkl p q).2.1.toNat with hn2def
    set kk := (get_nkl p q).2.2.1.toNat with hkkdef
    have hs1 : s1 = cfg.selM.take n1 ++ (cfg.selL.take n2
        ++ (if (get_nkl p q).2.2.2 < 0 then cfg.selE.take 1 else [])) := by
      have := congrArg Prod.fst hs
      simp only [sel_from_nkl] at this
      rw [← this, List.append_assoc]
    have hs2 : s2 = cfg.selM.drop n1 ++ ((cfg.selL.drop n2).take kk
        ++ (if 0 < (get_nkl p q).2.2.2 then
              cfg.selE.take (get_nkl p q).2.2.2.toNat else [])) := by
      have := congrArg Prod.snd hs
      simp only [sel_from_nkl] at this
      rw [← this, List.append_assoc]
    have hE1 : ∀ j ∈ (if (get_nkl p q).2.2.2 < 0 then cfg.selE.take 1 else []),
        j ∉ cfg.selM ∧ j ∉ cfg.selL := by
      intro j hj
      by_cases hl : (get_nkl p q).2.2.2 < 0
      · rw [if_pos hl] at hj
        exact selE_not_selM_selL c n j (List.mem_of_mem_take hj)
      · rw [if_neg hl] at hj
        exact absurd hj (List.not_mem_nil j)
    have hE2 : ∀ j ∈ (if 0 < (get_nkl p q).2.2.2 then
          cfg.selE.take (get_nkl p q).2.2.2.toNat else []),
        j ∉ cfg.selM ∧ j ∉ cfg.selL := by
      intro j hj
      by_cases hl : 0 < (get_nkl p q).2.2.2
      · rw [if_pos hl] at hj
        exact selE_not_selM_selL c n j (List.mem_of_mem_take hj)
      · rw [if_neg hl] at hj
        exact absurd hj (List.not_mem_nil j)
    have hb1 : n1 ≤ cfg.selM.length := by
      have := hsz.1
      omega
    have hb2 : n2 + kk ≤ cfg.selL.length := by
      have := hsz.2.1
      omega
    have hw := weighB_sizes c cfg.selM cfg.selL _ _ n1 n2 kk
      (selM_nodup c n) (selL_nodup c n) hML hE1 hE2 hperm hb1 hb2
    rw [← hs1, ← hs2] at hw
    rw [hw.1, hw.2.1, hw.2.2]
    have hsum := hsz.2.2.1
    have h3a := hsz.2.2.2.1
    have h3b := hsz.2.2.2.2.1
    have h3c := hsz.2.2.2.2.2.1
    omega

/-! ## Strict decrease of the possibility set at every expanded node -/

theorem filter_length_lt {α : Type} (c : List α) (p : α → Bool) (x : α)
    (hx : x ∈ c) (hpx : p x = false) : (c.filter p).length < c.length := by
  have hle := List.length_filter_le p c
  rcases Nat.lt_or_ge (c.filter p).length c.length with h | h
  · exact h
  · exfalso
    have heq : (c.filter p).length = c.length := by omega
    rw [← List.countP_eq_length_filter] at heq
    have := List.countP_eq_length.mp heq x hx
    rw [hpx] at this
    exact absurd this (by simp)

theorem num_pos_pos_n (c : List Int) (n : Nat)
    (hnp : 1 ≤ num_pos (get_cfg c n)) : 0 < n := by
  by_contra h
  have hn0 : n = 0 := by omega
  subst hn0
  have : get_cfg c 0 = ⟨0, [], [], [], []⟩ := rfl
  rw [this] at hnp
  unfold num_pos at hnp
  simp at hnp

/-- At every node the adaptive search actually expands (configuration
classified as type A or type B, a nonempty selection returned), each of
the three outcome sets is strictly smaller than the current set. -/
theorem strict_decrease (c : List Int) (n : Nat) (hnd : c.Nodup)
    (huniv : ∀ x ∈ c, x = 0 ∨ (1 ≤ x.natAbs ∧ x.natAbs ≤ n))
    (hnp : 1 < num_pos (get_cfg c n))
    (s1 s2 : List Nat) (hsel : getselection (get_cfg c n) = some (s1, s2))
    (hlen : 0 < s1.length) :
    npos (weigh c s1 s2).1 < npos c ∧
    npos (weigh c s1 s2).2.1 < npos c ∧
    npos (weigh c s1 s2).2.2 < npos c := by
  have hn : 0 < n := num_pos_pos_n c n (by omega)
  unfold getselection at hsel
  by_cases hA : (get_cfg c n).selM.length = 0 ∧ (get_cfg c n).selL.length = 0 ∧
      (get_cfg c n).all_equal ≠ 0
  · -- type A: the first selected coin is DOUBLE and hypothesis 0 survives
    rw [if_pos hA] at hsel
    have hpair : get_sel_A (get_cfg c n) = (s1, s2) := Option.some.inj hsel
    have h0c : (0 : Int) ∈ c := by
      have := hA.2.2
      rw [get_cfg_all_equal] at this
      by_cases h' : 0 < n ∧ (0 : Int) ∈ c
      · exact h'.2
      · rw [if_neg h'] at this; exact absurd rfl this
    have hs1D : ∀ j ∈ s1, j ∈ (get_cfg c n).selD := by
      intro j hj
      have h1 : s1 = (get_cfg c n).selD.take
          (get_sel_A (get_cfg c n)).1.length ∨ ∃ nn, s1 = (get_cfg c n).selD.take nn := by
        right
        refine ⟨?_, ?_⟩
        · exact (if ((get_cfg c n).selD.length) % 3 = 0
            then (get_cfg c n).selD.length / 3
            else if ((get_cfg c n).selD.length) % 3 = 1
              then (if (get_cfg c n).selE.length ≠ 0
                then ((get_cfg c n).selD.length + 2) / 3
                else ((get_cfg c n).selD.length - 1) / 3)
              else ((get_cfg c n).selD.length + 1) / 3)
        · have := congrArg Prod.fst hpair
          simp only [get_sel_A] at this
          rw [← this]
          split_ifs <;> rfl
      rcases h1 with h' | ⟨nn, h'⟩
      · rw [h'] at hj; exact List.mem_of_mem_take hj
      · rw [h'] at hj; exact List.mem_of_mem_take hj
    obtain ⟨j0, hj0s1⟩ := List.exists_mem_of_length_pos hlen
    have hj0D : j0 ∈ (get_cfg c n).selD := hs1D j0 hj0s1
    have hj0s2 : j0 ∉ s2 := by
      intro hmem
      have hDD := ((mem_selD_iff c n j0).mp hj0D).2
      -- s2 is drawn from the rest of selD (disjoint from s1's take) and selE
      have hs2form : s2 = (if ((get_cfg c n).selD.length) % 3 = 0 ∨
          (((get_cfg c n).selD.length) % 3 = 1 ∧ (get_cfg c n).selE.length = 0) ∨
          ((get_cfg c n).selD.length) % 3 = 2 then s2 else s2) := by simp
      -- rather than re-deriving the exact shape, use the generic fact below
      clear hs2form
      -- derive the shape of s1 and s2 from get_sel_A directly
      have h1 := congrArg Prod.fst hpair
      have h2 := congrArg Prod.snd hpair
      simp only [get_sel_A] at h1 h2
      set m := (get_cfg c n).selD.length with hm
      set nl : Nat × Nat :=
        (if m % 3 = 0 then (m / 3, 0)
         else if m % 3 = 1 then
           (if (get_cfg c n).selE.length ≠ 0 then ((m + 2) / 3, 1)
            else ((m - 1) / 3, 0))
         else ((m + 1) / 3, 0)) with hnl
      have hs1' : (get_cfg c n).selD.take nl.1 = s1 := h1
      have hdisj := List.disjoint_take_drop (selD_nodup c n) (le_refl nl.1)
      have hj0take : j0 ∈ (get_cfg c n).selD.take nl.1 := hs1' ▸ hj0s1
      by_cases hl : nl.2 = 0
      · rw [if_pos hl] at h2
        rw [← h2] at hmem
        exact hdisj hj0take (List.mem_of_mem_take hmem)
      · rw [if_neg hl] at h2
        rw [← h2] at hmem
        rcases List.mem_append.mp hmem with h' | h'
        · exact hdisj hj0take (List.mem_of_mem_take h')
        · have hjE : j0 ∈ (get_cfg c n).selE := List.mem_of_mem_take h'
          have := ((mem_selE_iff c n j0).mp hjE).2
          rw [this] at hDD
          exact absurd hDD (by simp [C_EQUAL, C_DOUBLE])
    have hj0s1' : j0 ∈ s1 := hj0s1
    have hDD := ((mem_selD_iff c n j0).mp hj0D).2
    rcases coinType_double_mem c j0 hDD with hhyp | hhyp
    · -- heavy hypothesis of j0 present: it lands in the MORE set
      have hout : outcome s1 s2 ((j0 : Int) + 1) = C_MORE :=
        outcome_pos_left j0 s1 s2 hj0s1' hj0s2
      refine ⟨?_, ?_, ?_⟩
      · exact filter_length_lt c _ ((j0 : Int) + 1) hhyp
          (by simp only [decide_eq_false_iff_not]; rw [hout]; simp [C_MORE, C_EQUAL])
      · exact filter_length_lt c _ 0 h0c
          (by simp only [decide_eq_false_iff_not]
              rw [outcome_zero]; simp [C_MORE, C_EQUAL])
      · exact filter_length_lt c _ 0 h0c
          (by simp only [decide_eq_false_iff_not]
              rw [outcome_zero]; simp [C_LESS, C_EQUAL])
    · -- light hypothesis of j0 present: it lands in the LESS set
      have hout : outcome s1 s2 (-((j0 : Int) + 1)) = C_LESS :=
        outcome_neg_left j0 s1 s2 hj0s1' hj0s2
      refine ⟨?_, ?_, ?_⟩
      · exact filter_length_lt c _ (-((j0 : Int) + 1)) hhyp
          (by simp only [decide_eq_false_iff_not]; rw [hout]; simp [C_LESS, C_EQUAL])
      · exact filter_length_lt c _ 0 h0c
          (by simp only [decide_eq_false_iff_not]
              rw [outcome_zero]; simp [C_MORE, C_EQUAL])
      · exact filter_length_lt c _ 0 h0c
          (by simp only [decide_eq_false_iff_not]
              rw [outcome_zero]; simp [C_LESS, C_EQUAL])
  · rw [if_neg hA] at hsel
    by_cases hB : (get_cfg c n).selD.length = 0 ∧ (get_cfg c n).all_equal = 0
    · rw [if_pos hB] at hsel
      have hDnil : (get_cfg c n).selD = [] := List.length_eq_zero.mp hB.1
      have hbounds := selB_bounds c n hnd huniv hn hDnil hB.2 s1 s2 hsel
      have hperm := typeB_perm c n hnd huniv hn hDnil hB.2
      have hlenc : npos c = (get_cfg c n).selM.length + (get_cfg c n).selL.length := by
        unfold npos
        rw [hperm.length_eq, List.length_append, List.length_map, List.length_map]
      have ht : 2 ≤ (get_cfg c n).selM.length + (get_cfg c n).selL.length := by
        unfold num_pos at hnp
        rw [hB.2, List.length_eq_zero.mpr hDnil] at hnp
        simp at hnp
        omega
      rw [hlenc]
      omega
    · rw [if_neg hB] at hsel
      exact absurd hsel (by simp)

/-! ## Termination: fuel beyond the possibility-set size is irrelevant -/

theorem weigh_sequential_succ (fuel : Nat) (c : List Int) (n : Nat) :
    weigh_sequential (fuel + 1) c n =
      if num_pos (get_cfg c n) ≤ 1 then some 0
      else match getselection (get_cfg c n) with
        | none => none
        | some (s1, s2) =>
          if 0 < s1.length then
            match weigh_sequential fuel (weigh c s1 s2).2.1 n,
                weigh_sequential fuel (weigh c s1 s2).1 n,
                weigh_sequential fuel (weigh c s1 s2).2.2 n with
            | some r1, some r2, some r3 => some (1 + max3 r1 r2 r3)
            | _, _, _ => none
          else none := rfl

theorem weigh_nodup (c : List Int) (s1 s2 : List Nat) (hnd : c.Nodup) :
    (weigh c s1 s2).1.Nodup ∧ (weigh c s1 s2).2.1.Nodup ∧
      (weigh c s1 s2).2.2.Nodup := by
  unfold weigh
  exact ⟨hnd.filter _, hnd.filter _, hnd.filter _⟩

theorem weigh_subset (c : List Int) (s1 s2 : List Nat) :
    (∀ x ∈ (weigh c s1 s2).1, x ∈ c) ∧ (∀ x ∈ (weigh c s1 s2).2.1, x ∈ c) ∧
      (∀ x ∈ (weigh c s1 s2).2.2, x ∈ c) := by
  unfold weigh
  exact ⟨fun x hx => (List.mem_filter.mp hx).1,
    fun x hx => (List.mem_filter.mp hx).1,
    fun x hx => (List.mem_filter.mp hx).1⟩

theorem num_pos_nil (n : Nat) : num_pos (get_cfg ([] : List Int) n) = 0 := by
  unfold num_pos
  rw [get_cfg_selM, get_cfg_selL, get_cfg_selD, get_cfg_all_equal]
  have h1 : ∀ k, coinType ([] : List Int) k = C_EQUAL := fun k => rfl
  have h2 : ((List.range n).filter
      (fun k => decide (coinType ([] : List Int) k = C_MORE))).length = 0 := by
    rw [← List.countP_eq_length_filter, List.countP_eq_zero]
    intro a _
    simp [h1 a, C_EQUAL, C_MORE]
  have h3 : ((List.range n).filter
      (fun k => decide (coinType ([] : List Int) k = C_LESS))).length = 0 := by
    rw [← List.countP_eq_length_filter, List.countP_eq_zero]
    intro a _
    simp [h1 a, C_EQUAL, C_LESS]
  have h4 : ((List.range n).filter
      (fun k => decide (coinType ([] : List Int) k = C_DOUBLE))).length = 0 := by
    rw [← List.countP_eq_length_filter, List.countP_eq_zero]
    intro a _
    simp [h1 a, C_EQUAL, C_DOUBLE]
  rw [h2, h3, h4]
  simp

/-- Any fuel of at least `npos c + 1` computes the same result as fuel
exactly `npos c + 1`: the recursion never exhausts that much fuel, since
the possibility set strictly shrinks on every branch. -/
theorem weigh_sequential_stable (N : Nat) :
    ∀ (c : List Int) (n : Nat), npos c ≤ N → c.Nodup →
      (∀ x ∈ c, x = 0 ∨ (1 ≤ x.natAbs ∧ x.natAbs ≤ n)) →
      ∀ fuel, N + 1 ≤ fuel →
        weigh_sequential fuel c n = weigh_sequential (N + 1) c n := by
  induction N with
  | zero =>
    intro c n hN hnd huniv fuel hfuel
    have hc : c = [] := List.length_eq_zero.mp (by unfold npos at hN; omega)
    subst hc
    obtain ⟨f, rfl⟩ : ∃ f, fuel = f + 1 := ⟨fuel - 1, by omega⟩
    rw [weigh_sequential_succ, show (0 + 1 : Nat) = 0 + 1 from rfl,
      weigh_sequential_succ]
    rw [if_pos (by rw [num_pos_nil]; omega), if_pos (by rw [num_pos_nil]; omega)]
  | succ N ih =>
    intro c n hN hnd huniv fuel hfuel
    obtain ⟨f, rfl⟩ : ∃ f, fuel = f + 1 := ⟨fuel - 1, by omega⟩
    rw [weigh_sequential_succ, show (N + 1 + 1 : Nat) = (N + 1) + 1 from rfl,
      weigh_sequential_succ]
    by_cases h1 : num_pos (get_cfg c n) ≤ 1
    · rw [if_pos h1, if_pos h1]
    · rw [if_neg h1, if_neg h1]
      rcases hgs : getselection (get_cfg c n) with _ | ⟨s1, s2⟩
      · rfl
      · dsimp only
        by_cases hl : 0 < s1.length
        · rw [if_pos hl, if_pos hl]
          have hd := strict_decrease c n hnd huniv (by omega) s1 s2 hgs hl
          have hwn := weigh_nodup c s1 s2 hnd
          have hws := weigh_subset c s1 s2
          have e1 := ih (weigh c s1 s2).2.1 n (by omega) hwn.2.1
            (fun x hx => huniv x (hws.2.1 x hx)) f (by omega)
          have e2 := ih (weigh c s1 s2).1 n (by omega) hwn.1
            (fun x hx => huniv x (hws.1 x hx)) f (by omega)
          have e3 := ih (weigh c s1 s2).2.2 n (by omega) hwn.2.2
            (fun x hx => huniv x (hws.2.2 x hx)) f (by omega)
          have e1' := ih (weigh c s1 s2).2.1 n (by omega) hwn.2.1
            (fun x hx => huniv x (hws.2.1 x hx)) (N + 1) (le_refl _)
          have e2' := ih (weigh c s1 s2).1 n (by omega) hwn.1
            (fun x hx => huniv x (hws.1 x hx)) (N + 1) (le_refl _)
          have e3' := ih (weigh c s1 s2).2.2 n (by omega) hwn.2.2
            (fun x hx => huniv x (hws.2.2 x hx)) (N + 1) (le_refl _)
          rw [e1, e2, e3, e1', e2', e3']
        · rw [if_neg hl, if_neg hl]

theorem new_coins_npos (n : Nat) : npos (new_coins n) = 2 * n + 1 := by
  unfold npos new_coins
  simp
  omega

theorem new_coins_nodup (n : Nat) : (new_coins n).Nodup := by
  unfold new_coins
  rw [List.nodup_cons, List.nodup_append]
  refine ⟨?_, ?_, ?_, ?_⟩
  · intro hmem
    rcases List.mem_append.mp hmem with h' | h' <;>
      rcases List.mem_map.mp h' with ⟨k, _, hk⟩ <;> omega
  · exact (List.nodup_range n).map (fun a b hab => by omega)
  · exact (List.nodup_range n).map (fun a b hab => by omega)
  · intro a haP haN
    rcases List.mem_map.mp haP with ⟨k, _, hk⟩
    rcases List.mem_map.mp haN with ⟨i, _, hi⟩
    omega

theorem new_coins_univ (n : Nat) :
    ∀ x ∈ new_coins n, x = 0 ∨ (1 ≤ x.natAbs ∧ x.natAbs ≤ n) := by
  intro x hx
  unfold new_coins at hx
  rcases List.mem_cons.mp hx with h' | h'
  · exact Or.inl h'
  · rcases List.mem_append.mp h' with h'' | h'' <;>
      rcases List.mem_map.mp h'' with ⟨k, hk, hkx⟩ <;>
        rw [List.mem_range] at hk <;> right <;> omega

/-- Claim C4: the adaptive search terminates.  First part: at every
node where the search expands (nonterminal configuration, successful
selection of a nonempty pan), each of the three outcome sets is strictly
smaller than the current possibility set.  Second part: consequently,
for every `n ≥ 3` the recursion started on the initial possibility set
is insensitive to any fuel of at least its size plus one — the
recursion is well-founded and `weigh_sequential` computes its fixpoint
value. -/
theorem claim4_termination :
    (∀ (c : List Int) (n : Nat), c.Nodup →
      (∀ x ∈ c, x = 0 ∨ (1 ≤ x.natAbs ∧ x.natAbs ≤ n)) →
      1 < num_pos (get_cfg c n) →
      ∀ s1 s2, getselection (get_cfg c n) = some (s1, s2) → 0 < s1.length →
        npos (weigh c s1 s2).1 < npos c ∧ npos (weigh c s1 s2).2.1 < npos c ∧
          npos (weigh c s1 s2).2.2 < npos c) ∧
    (∀ n : Nat, 3 ≤ n → ∀ fuel, 2 * n + 2 ≤ fuel →
      weigh_sequential fuel (new_coins n) n
        = weigh_sequential (2 * n + 2) (new_coins n) n) := by
  constructor
  · intro c n hnd huniv hnp s1 s2 hsel hlen
    exact strict_decrease c n hnd huniv hnp s1 s2 hsel hlen
  · intro n hn fuel hfuel
    have h1 := weigh_sequential_stable (2 * n + 1) (new_coins n) n
      (by rw [new_coins_npos]) (new_coins_nodup n) (new_coins_univ n)
      fuel (by omega)
    have h2 : 2 * n + 1 + 1 = 2 * n + 2 := by omega
    rw [h2] at h1
    exact h1

/-- Claim C4 witness: the guarantees instantiated on the initial 3-coin
set with its selected weighing (coin 1 against coin 2). -/
theorem claim4_witness :
    npos (weigh (new_coins 3) [0] [1]).1 < npos (new_coins 3) ∧
    npos (weigh (new_coins 3) [0] [1]).2.1 < npos (new_coins 3) ∧
    npos (weigh (new_coins 3) [0] [1]).2.2 < npos (new_coins 3) :=
  claim4_termination.1 (new_coins 3) 3 (by decide) (by decide) (by decide)
    [0] [1] (by decide) (by decide)

/-- Claim C5 counterexample: on the type-B possibility set `{+1, -2}`
for 3 coins (MORE/LESS/EQUAL sizes `(1,1,1)`, `all_equal = 0`), the
selector weighs coin 3 against coin 1 and the three outcome sets have
sizes `0`, `1` and `1`: they sum to `p + q = 2`, not to
`p + q + e + (1 if all_equal) = 3` as the claim states. -/
theorem claim5_counterexample :
    get_sel_B (get_cfg [1, -2] 3) = some ([2], [0]) ∧
    (get_cfg [1, -2] 3).selM.length = 1 ∧
    (get_cfg [1, -2] 3).selL.length = 1 ∧
    (get_cfg [1, -2] 3).selE.length = 1 ∧
    (get_cfg [1, -2] 3).all_equal = 0 ∧
    ¬ (npos (weigh [1, -2] [2] [0]).2.1 + npos (weigh [1, -2] [2] [0]).1
        + npos (weigh [1, -2] [2] [0]).2.2
      = (get_cfg [1, -2] 3).selM.length + (get_cfg [1, -2] 3).selL.length
        + (get_cfg [1, -2] 3).selE.length + (get_cfg [1, -2] 3).all_equal) := by
  refine ⟨by decide, by decide, by decide, by decide, by decide, by decide⟩

/-- Claim C5 as amended: for a type-B configuration the three outcome
sets of the selected weighing sum to `p + q` (EQUAL coins carry no
hypotheses and `all_equal = 0`), and they pairwise differ by at most
one — with no exception needed, first split included. -/
theorem claim5_split_balance (c : List Int) (n : Nat) (hnd : c.Nodup)
    (huniv : ∀ x ∈ c, x = 0 ∨ (1 ≤ x.natAbs ∧ x.natAbs ≤ n)) (hn : 0 < n)
    (hD : (get_cfg c n).selD = []) (hA : (get_cfg c n).all_equal = 0)
    (s1 s2 : List Nat) (hsel : get_sel_B (get_cfg c n) = some (s1, s2)) :
    npos (weigh c s1 s2).2.1 + npos (weigh c s1 s2).1 + npos (weigh c s1 s2).2.2
      = (get_cfg c n).selM.length + (get_cfg c n).selL.length ∧
    npos (weigh c s1 s2).2.1 ≤ npos (weigh c s1 s2).1 + 1 ∧
    npos (weigh c s1 s2).1 ≤ npos (weigh c s1 s2).2.1 + 1 ∧
    npos (weigh c s1 s2).2.1 ≤ npos (weigh c s1 s2).2.2 + 1 ∧
    npos (weigh c s1 s2).2.2 ≤ npos (weigh c s1 s2).2.1 + 1 ∧
    npos (weigh c s1 s2).1 ≤ npos (weigh c s1 s2).2.2 + 1 ∧
    npos (weigh c s1 s2).2.2 ≤ npos (weigh c s1 s2).1 + 1 := by
  have h := selB_bounds c n hnd huniv hn hD hA s1 s2 hsel
  exact ⟨h.1, h.2.2.2.2.1, h.2.2.2.2.2.1, h.2.2.2.2.2.2.1,
    h.2.2.2.2.2.2.2.1, h.2.2.2.2.2.2.2.2.1, h.2.2.2.2.2.2.2.2.2⟩

/-- Claim C5 witness: the amended balance property on the concrete
type-B set `{+1, -2}` with 3 coins. -/
theorem claim5_witness :
    npos (weigh [1, -2] [2] [0]).2.1 + npos (weigh [1, -2] [2] [0]).1
        + npos (weigh [1, -2] [2] [0]).2.2
      = (get_cfg [1, -2] 3).selM.length + (get_cfg [1, -2] 3).selL.length ∧
    npos (weigh [1, -2] [2] [0]).2.1 ≤ npos (weigh [1, -2] [2] [0]).1 + 1 ∧
    npos (weigh [1, -2] [2] [0]).1 ≤ npos (weigh [1, -2] [2] [0]).2.1 + 1 ∧
    npos (weigh [1, -2] [2] [0]).2.1 ≤ npos (weigh [1, -2] [2] [0]).2.2 + 1 ∧
    npos (weigh [1, -2] [2] [0]).2.2 ≤ npos (weigh [1, -2] [2] [0]).2.1 + 1 ∧
    npos (weigh [1, -2] [2] [0]).1 ≤ npos (weigh [1, -2] [2] [0]).2.2 + 1 ∧
    npos (weigh [1, -2] [2] [0]).2.2 ≤ npos (weigh [1, -2] [2] [0]).1 + 1 :=
  claim5_split_balance [1, -2] 3 (by decide) (by decide) (by decide)
    (by decide) (by decide) [2] [0] (by decide)

/-- Claim C8: when `get_nkl` yields a negative `n1`, `n2` or `k`, the
selector swaps the MORE and LESS groups and retries the formulas exactly
once — and if the retried values are also infeasible it returns no
selection, which the adaptive search surfaces as an unrecoverable error
(`none`, the model of the fatal `exit`). -/
theorem claim8_swap_retry :
    (∀ cfg : coin_cfg,
      ((get_nkl cfg.selM.length cfg.selL.length).1 < 0 ∨
        (get_nkl cfg.selM.length cfg.selL.length).2.1 < 0 ∨
        (get_nkl cfg.selM.length cfg.selL.length).2.2.1 < 0) →
      get_sel_B cfg =
        (if (get_nkl cfg.selL.length cfg.selM.length).1 < 0 ∨
            (get_nkl cfg.selL.length cfg.selM.length).2.1 < 0 ∨
            (get_nkl cfg.selL.length cfg.selM.length).2.2.1 < 0 then none
         else some (sel_from_nkl (switch_more_less cfg)
            (get_nkl cfg.selL.length cfg.selM.length)))) ∧
    (∀ (c : List Int) (n fuel : Nat),
      (get_cfg c n).all_equal = 0 →
      1 < num_pos (get_cfg c n) →
      ((get_nkl (get_cfg c n).selM.length (get_cfg c n).selL.length).1 < 0 ∨
        (get_nkl (get_cfg c n).selM.length (get_cfg c n).selL.length).2.1 < 0 ∨
        (get_nkl (get_cfg c n).selM.length (get_cfg c n).selL.length).2.2.1 < 0) →
      ((get_nkl (get_cfg c n).selL.length (get_cfg c n).selM.length).1 < 0 ∨
        (get_nkl (get_cfg c n).selL.length (get_cfg c n).selM.length).2.1 < 0 ∨
        (get_nkl (get_cfg c n).selL.length (get_cfg c n).selM.length).2.2.1 < 0) →
      weigh_sequential (fuel + 1) c n = none) := by
  constructor
  · intro cfg hinf
    unfold get_sel_B
    rw [if_pos hinf]
    simp only [switch_selM, switch_selL]
  · intro c n fuel hA hnp hinf1 hinf2
    rw [weigh_sequential_succ, if_neg (by omega)]
    have hgs : getselection (get_cfg c n) = none := by
      unfold getselection
      rw [if_neg (by intro h'; exact h'.2.2 hA)]
      by_cases hB : (get_cfg c n).selD.length = 0 ∧ (get_cfg c n).all_equal = 0
      · rw [if_pos hB]
        unfold get_sel_B
        rw [if_pos hinf1]
        simp only [switch_selM, switch_selL]
        rw [if_pos hinf2]
      · rw [if_neg hB]
    rw [hgs]

/-- Claim C8 witness: on the concrete configuration of `{+1,..,+5}` with 5
coins (five MORE coins, no LESS coin) the direct formulas are infeasible
(`n2 = k = -1`), and the selector's result is exactly the swap-and-retry
expression. -/
theorem claim8_witness :
    ((get_nkl (get_cfg [1, 2, 3, 4, 5] 5).selM.length
        (get_cfg [1, 2, 3, 4, 5] 5).selL.length).1 < 0 ∨
      (get_nkl (get_cfg [1, 2, 3, 4, 5] 5).selM.length
        (get_cfg [1, 2, 3, 4, 5] 5).selL.length).2.1 < 0 ∨
      (get_nkl (get_cfg [1, 2, 3, 4, 5] 5).selM.length
        (get_cfg [1, 2, 3, 4, 5] 5).selL.length).2.2.1 < 0) ∧
    get_sel_B (get_cfg [1, 2, 3, 4, 5] 5) =
      (if (get_nkl (get_cfg [1, 2, 3, 4, 5] 5).selL.length
            (get_cfg [1, 2, 3, 4, 5] 5).selM.length).1 < 0 ∨
          (get_nkl (get_cfg [1, 2, 3, 4, 5] 5).selL.length
            (get_cfg [1, 2, 3, 4, 5] 5).selM.length).2.1 < 0 ∨
          (get_nkl (get_cfg [1, 2, 3, 4, 5] 5).selL.length
            (get_cfg [1, 2, 3, 4, 5] 5).selM.length).2.2.1 < 0 then none
       else some (sel_from_nkl (switch_more_less (get_cfg [1, 2, 3, 4, 5] 5))
          (get_nkl (get_cfg [1, 2, 3, 4, 5] 5).selL.length
            (get_cfg [1, 2, 3, 4, 5] 5).selM.length))) :=
  ⟨by decide, claim8_swap_retry.1 (get_cfg [1, 2, 3, 4, 5] 5) (by decide)⟩
/-- Claim C6: the type-A selector picks the pan size from `|DOUBLE| mod 3`
(`m/3`; `(m+2)/3` borrowing one EQUAL coin when one exists, else `(m-1)/3`;
`(m+1)/3`), puts the first `n` DOUBLE coins on the left pan and the next
DOUBLE coins on the right pan, padded with the first EQUAL coin in the
borrowing case; both pans hold exactly `n` coins. -/
theorem claim6_selA (cfg : coin_cfg) :
    (cfg.selD.length % 3 = 0 →
      get_sel_A cfg =
        (cfg.selD.take (cfg.selD.length / 3),
         (cfg.selD.drop (cfg.selD.length / 3)).take (cfg.selD.length / 3)) ∧
      (get_sel_A cfg).1.length = cfg.selD.length / 3 ∧
      (get_sel_A cfg).2.length = cfg.selD.length / 3) ∧
    (cfg.selD.length % 3 = 1 → 0 < cfg.selE.length →
      get_sel_A cfg =
        (cfg.selD.take ((cfg.selD.length + 2) / 3),
         (cfg.selD.drop ((cfg.selD.length + 2) / 3)).take
             ((cfg.selD.length + 2) / 3 - 1)
           ++ cfg.selE.take 1) ∧
      (get_sel_A cfg).1.length = (cfg.selD.length + 2) / 3 ∧
      (get_sel_A cfg).2.length = (cfg.selD.length + 2) / 3) ∧
    (cfg.selD.length % 3 = 1 → cfg.selE.length = 0 →
      get_sel_A cfg =
        (cfg.selD.take ((cfg.selD.length - 1) / 3),
         (cfg.selD.drop ((cfg.selD.length - 1) / 3)).take
             ((cfg.selD.length - 1) / 3)) ∧
      (get_sel_A cfg).1.length = (cfg.selD.length - 1) / 3 ∧
      (get_sel_A cfg).2.length = (cfg.selD.length - 1) / 3) ∧
    (cfg.selD.length % 3 = 2 →
      get_sel_A cfg =
        (cfg.selD.take ((cfg.selD.length + 1) / 3),
         (cfg.selD.drop ((cfg.selD.length + 1) / 3)).take
             ((cfg.selD.length + 1) / 3)) ∧
      (get_sel_A cfg).1.length = (cfg.selD.length + 1) / 3 ∧
      (get_sel_A cfg).2.length = (cfg.selD.length + 1) / 3) := by
  refine ⟨?_, ?_, ?_, ?_⟩
  · intro h0
    have heq : get_sel_A cfg =
        (cfg.selD.take (cfg.selD.length / 3),
         (cfg.selD.drop (cfg.selD.length / 3)).take (cfg.selD.length / 3)) := by
      simp only [get_sel_A]
      rw [if_pos h0]
      simp
    refine ⟨heq, ?_, ?_⟩
    · rw [heq]
      simp only [List.length_take]
      omega
    · rw [heq]
      simp only [List.length_take, List.length_drop]
      omega
  · intro h1 he
    have heq : get_sel_A cfg =
        (cfg.selD.take ((cfg.selD.length + 2) / 3),
         (cfg.selD.drop ((cfg.selD.length + 2) / 3)).take
             ((cfg.selD.length + 2) / 3 - 1)
           ++ cfg.selE.take 1) := by
      simp only [get_sel_A]
      rw [if_neg (show ¬ cfg.selD.length % 3 = 0 by omega), if_pos h1,
        if_pos (show cfg.selE.length ≠ 0 by omega)]
      simp
    refine ⟨heq, ?_, ?_⟩
    · rw [heq]
      simp only [List.length_take]
      omega
    · rw [heq]
      simp only [List.length_append, List.length_take, List.length_drop]
      omega
  · intro h1 he
    have heq : get_sel_A cfg =
        (cfg.selD.take ((cfg.selD.length - 1) / 3),
         (cfg.selD.drop ((cfg.selD.length - 1) / 3)).take
             ((cfg.selD.length - 1) / 3)) := by
      simp only [get_sel_A]
      rw [if_neg (show ¬ cfg.selD.length % 3 = 0 by omega), if_pos h1,
        if_neg (show ¬ cfg.selE.length ≠ 0 by omega)]
      simp
    refine ⟨heq, ?_, ?_⟩
    · rw [heq]
      simp only [List.length_take]
      omega
    · rw [heq]
      simp only [List.length_take, List.length_drop]
      omega
  · intro h2
    have heq : get_sel_A cfg =
        (cfg.selD.take ((cfg.selD.length + 1) / 3),
         (cfg.selD.drop ((cfg.selD.length + 1) / 3)).take
             ((cfg.selD.length + 1) / 3)) := by
      simp only [get_sel_A]
      rw [if_neg (show ¬ cfg.selD.length % 3 = 0 by omega),
        if_neg (show ¬ cfg.selD.length % 3 = 1 by omega)]
      simp
    refine ⟨heq, ?_, ?_⟩
    · rw [heq]
      simp only [List.length_take]
      omega
    · rw [heq]
      simp only [List.length_take, List.length_drop]
      omega

/-- Claim C6 witness: on the configuration of the fresh 3-coin instance
(`selD = [0,1,2]`, no EQUAL coin) the `m mod 3 = 0` case applies: each pan
gets exactly one DOUBLE coin. -/
theorem claim6_witness :
    (get_cfg (new_coins 3) 3).selD.length % 3 = 0 ∧
    (get_sel_A (get_cfg (new_coins 3) 3) =
      ((get_cfg (new_coins 3) 3).selD.take
          ((get_cfg (new_coins 3) 3).selD.length / 3),
       ((get_cfg (new_coins 3) 3).selD.drop
          ((get_cfg (new_coins 3) 3).selD.length / 3)).take
          ((get_cfg (new_coins 3) 3).selD.length / 3)) ∧
     (get_sel_A (get_cfg (new_coins 3) 3)).1.length =
        (get_cfg (new_coins 3) 3).selD.length / 3 ∧
     (get_sel_A (get_cfg (new_coins 3) 3)).2.length =
        (get_cfg (new_coins 3) 3).selD.length / 3) :=
  ⟨by decide, (claim6_selA (get_cfg (new_coins 3) 3)).1 (by decide)⟩

/-! ## The base-3 complement `op`: basic properties -/

theorem ipow_three (n : Nat) : ipow 3 n = 3 ^ n := by
  induction n with
  | zero => rfl
  | succ n ih => rw [ipow, ih, pow_succ]; ring

theorem opAux_zero (f : Nat) : opAux f 0 = 0 := by
  cases f <;> rfl

theorem opAux_stable (f f' x : Nat) (hf : x ≤ f) (hf' : x ≤ f') :
    opAux f x = opAux f' x := by
  induction f generalizing f' x with
  | zero =>
    have hx : x = 0 := by omega
    subst hx
    rw [opAux_zero, opAux_zero]
  | succ f ih =>
    by_cases hx : x = 0
    · subst hx
      rw [opAux_zero, opAux_zero]
    · cases f' with
      | zero => omega
      | succ f'' =>
        simp only [opAux]
        rw [if_neg hx, if_neg hx,
          ih f'' (x / 3) (by omega) (by omega)]

theorem op_unfold (x : Nat) : op x = swap3 (x % 3) + 3 * op (x / 3) := by
  cases x with
  | zero => decide
  | succ n =>
    unfold op
    simp only [opAux]
    rw [if_neg (Nat.succ_ne_zero n),
      opAux_stable n ((n + 1) / 3) ((n + 1) / 3) (by omega) (Nat.le_refl _)]

theorem swap3_lt (r : Nat) : swap3 r < 3 := by
  unfold swap3
  split_ifs <;> omega

theorem swap3_swap3 (r : Nat) (h : r < 3) : swap3 (swap3 r) = r := by
  interval_cases r <;> decide

theorem swap3_zero_iff (r : Nat) (h : r < 3) : swap3 r = 0 ↔ r = 0 := by
  interval_cases r <;> decide

theorem swap3_fix (r : Nat) (h : r < 3) : swap3 r = r ↔ r = 0 := by
  interval_cases r <;> decide

theorem op_eq_zero (x : Nat) : op x = 0 ↔ x = 0 := by
  induction x using Nat.strong_induction_on with
  | _ x ih =>
    rcases Nat.eq_zero_or_pos x with h | h
    · subst h
      decide
    · rw [op_unfold]
      constructor
      · intro h0
        have h2 := swap3_lt (x % 3)
        have h1 : swap3 (x % 3) = 0 := by omega
        have h3 : x % 3 = 0 := (swap3_zero_iff _ (by omega)).mp h1
        have h4 : x / 3 = 0 := (ih (x / 3) (by omega)).mp (by omega)
        omega
      · intro h0
        omega

theorem op_pos (x : Nat) (h : 1 ≤ x) : 1 ≤ op x := by
  have h0 := op_eq_zero x
  omega

theorem op_lt_pow (k : Nat) : ∀ x, x < 3 ^ k → op x < 3 ^ k := by
  induction k with
  | zero =>
    intro x hx
    interval_cases x
    decide
  | succ k ih =>
    intro x hx
    rw [op_unfold]
    rw [pow_succ] at hx ⊢
    have h1 : op (x / 3) < 3 ^ k := ih (x / 3) (by omega)
    have h2 := swap3_lt (x % 3)
    omega

theorem op_op (x : Nat) : op (op x) = x := by
  induction x using Nat.strong_induction_on with
  | _ x ih =>
    rcases Nat.eq_zero_or_pos x with h | h
    · subst h
      decide
    · have hs := swap3_lt (x % 3)
      have hmod : op x % 3 = swap3 (x % 3) := by
        rw [op_unfold x]
        omega
      have hdiv : op x / 3 = op (x / 3) := by
        rw [op_unfold x]
        omega
      rw [op_unfold (op x), hmod, hdiv,
        swap3_swap3 _ (by omega), ih (x / 3) (by omega)]
      omega

theorem op_inj (x y : Nat) (h : op x = op y) : x = y := by
  rw [← op_op x, h, op_op]

theorem op_ne_self (x : Nat) : 1 ≤ x → op x ≠ x := by
  induction x using Nat.strong_induction_on with
  | _ x ih =>
    intro h heq
    rw [op_unfold] at heq
    have h2 := swap3_lt (x % 3)
    have h3 : swap3 (x % 3) = x % 3 := by omega
    have h4 : op (x / 3) = x / 3 := by omega
    have h5 : x % 3 = 0 := (swap3_fix _ (by omega)).mp h3
    exact ih (x / 3) (by omega) (by omega) h4

theorem op_add_mul_pow (k : Nat) :
    ∀ x d, x < 3 ^ k → d < 3 →
      op (x + d * 3 ^ k) = op x + swap3 d * 3 ^ k := by
  induction k with
  | zero =>
    intro x d hx hd
    interval_cases x
    interval_cases d <;> decide
  | succ k ih =>
    intro x d hx hd
    have hpow : (3 : Nat) ^ (k + 1) = 3 * 3 ^ k := by
      rw [pow_succ]; ring
    have he : d * 3 ^ (k + 1) = 3 * (d * 3 ^ k) := by
      rw [hpow]; ring
    rw [op_unfold (x + d * 3 ^ (k + 1)), he]
    have hmod : (x + 3 * (d * 3 ^ k)) % 3 = x % 3 := by omega
    have hdiv : (x + 3 * (d * 3 ^ k)) / 3 = x / 3 + d * 3 ^ k := by omega
    rw [hmod, hdiv, ih (x / 3) d (by rw [hpow] at hx; omega) hd,
      op_unfold x, hpow]
    ring

theorem op_shift1 (k x : Nat) (hx : x < 3 ^ k) :
    op (x + 3 ^ k) = op x + 2 * 3 ^ k := by
  have h := op_add_mul_pow k x 1 hx (by norm_num)
  rw [show swap3 1 = 2 from rfl, one_mul] at h
  exact h

theorem op_shift2 (k x : Nat) (hx : x < 3 ^ k) :
    op (x + 2 * 3 ^ k) = op x + 3 ^ k := by
  have h := op_add_mul_pow k x 2 hx (by norm_num)
  rw [show swap3 2 = 1 from rfl, one_mul] at h
  exact h

theorem op_two_pow (k : Nat) : op (2 * 3 ^ k) = 3 ^ k := by
  have h := op_shift2 k 0 (by positivity)
  simpa [show op 0 = 0 from rfl] using h

/-! ## Free values, the `missing` scan, and `mcomplement` -/

theorem distinctFree_symm : Symmetric distinctFree := by
  intro a b h
  exact ⟨Ne.symm h.1, h.2.2, h.2.1⟩

theorem isfree_iff (t : Nat) (hc : List Nat) :
    isfree t hc = true ↔ ∀ x ∈ hc, t ≠ x ∧ t ≠ op x := by
  simp [isfree, List.all_eq_true]

theorem missingAux_spec (b : List Nat) :
    ∀ fuel i m, missingAux b i fuel = some m →
      i ≤ m ∧ m < i + fuel ∧ isfree m b = true ∧
        ∀ q, i ≤ q → q < m → isfree q b = false := by
  intro fuel
  induction fuel with
  | zero =>
    intro i m h
    simp [missingAux] at h
  | succ fuel ih =>
    intro i m h
    by_cases hf : isfree i b = true
    · rw [missingAux, if_pos hf] at h
      obtain rfl : i = m := by simpa using h
      exact ⟨le_refl _, by omega, hf, fun q h1 h2 => by omega⟩
    · rw [missingAux, if_neg hf] at h
      rw [Bool.not_eq_true] at hf
      obtain ⟨h1, h2, h3, h4⟩ := ih (i + 1) m h
      refine ⟨by omega, by omega, h3, ?_⟩
      intro q hq1 hq2
      rcases Nat.eq_or_lt_of_le hq1 with he | hl
      · rw [← he]
        exact hf
      · exact h4 q hl hq2

theorem missingAux_of_min (b : List Nat) :
    ∀ fuel i m, i ≤ m → m < i + fuel → isfree m b = true →
      (∀ q, i ≤ q → q < m → isfree q b = false) →
      missingAux b i fuel = some m := by
  intro fuel
  induction fuel with
  | zero =>
    intro i m h1 h2 h3 h4
    omega
  | succ fuel ih =>
    intro i m h1 h2 h3 h4
    by_cases he : i = m
    · rw [missingAux, if_pos (he ▸ h3)]
      rw [he]
    · have hf : isfree i b = false := h4 i (le_refl i) (by omega)
      rw [missingAux, if_neg (by simp [hf])]
      exact ih (i + 1) m (by omega) (by omega) h3
        (fun q hq1 hq2 => h4 q (by omega) hq2)

theorem mcomplementO_lt (k : Nat) :
    ∀ m hc s, mcomplementO m hc k = some s → s < 3 ^ k := by
  induction k with
  | zero =>
    intro m hc s h
    simp only [mcomplementO, Option.some.injEq] at h
    rw [← h]
    norm_num
  | succ k ih =>
    intro m hc s h
    simp only [mcomplementO] at h
    by_cases h0 : m % 3 = 0
    · rw [if_pos h0] at h
      cases hrec : mcomplementO (m / 3) (hc / 3) k with
      | none => rw [hrec] at h; simp at h
      | some s' =>
        rw [hrec] at h
        simp only [Option.bind_eq_bind, Option.some_bind, Option.some.injEq] at h
        have hi := ih (m / 3) (hc / 3) s' hrec
        have h3 : hc % 3 < 3 := Nat.mod_lt _ (by norm_num)
        rw [pow_succ]
        omega
    · rw [if_neg h0] at h
      by_cases h1 : hc % 3 ≠ 0
      · rw [if_pos h1] at h
        simp at h
      · rw [if_neg h1] at h
        cases hrec : mcomplementO (m / 3) (hc / 3) k with
        | none => rw [hrec] at h; simp at h
        | some s' =>
          rw [hrec] at h
          simp only [Option.bind_eq_bind, Option.some_bind, Option.some.injEq] at h
          have hi := ih (m / 3) (hc / 3) s' hrec
          have h3 := swap3_lt (m % 3)
          rw [pow_succ]
          omega

theorem mcomplementO_ne (k : Nat) :
    ∀ m hc s, mcomplementO m hc k = some s → 1 ≤ m → s ≠ m := by
  induction k with
  | zero =>
    intro m hc s h hm
    simp only [mcomplementO, Option.some.injEq] at h
    omega
  | succ k ih =>
    intro m hc s h hm
    simp only [mcomplementO] at h
    by_cases h0 : m % 3 = 0
    · rw [if_pos h0] at h
      cases hrec : mcomplementO (m / 3) (hc / 3) k with
      | none => rw [hrec] at h; simp at h
      | some s' =>
        rw [hrec] at h
        simp only [Option.bind_eq_bind, Option.some_bind, Option.some.injEq] at h
        have hia := ih (m / 3) (hc / 3) s' hrec (by omega)
        have h3 : hc % 3 < 3 := Nat.mod_lt _ (by norm_num)
        intro heq
        apply hia
        omega
    · rw [if_neg h0] at h
      by_cases h1 : hc % 3 ≠ 0
      · rw [if_pos h1] at h
        simp at h
      · rw [if_neg h1] at h
        cases hrec : mcomplementO (m / 3) (hc / 3) k with
        | none => rw [hrec] at h; simp at h
        | some s' =>
          rw [hrec] at h
          simp only [Option.bind_eq_bind, Option.some_bind, Option.some.injEq] at h
          have h2 := swap3_lt (m % 3)
          intro heq
          have h4 : swap3 (m % 3) = m % 3 := by omega
          exact h0 ((swap3_fix _ (by omega)).mp h4)

theorem mcomplementO_ne_op (k : Nat) :
    ∀ m hc s, mcomplementO m hc k = some s → 1 ≤ hc → hc < 3 ^ k →
      s ≠ op m := by
  induction k with
  | zero =>
    intro m hc s h hhc hlt
    norm_num at hlt
    omega
  | succ k ih =>
    intro m hc s h hhc hlt
    rw [pow_succ] at hlt
    have hop := op_unfold m
    simp only [mcomplementO] at h
    by_cases h0 : m % 3 = 0
    · rw [if_pos h0] at h
      cases hrec : mcomplementO (m / 3) (hc / 3) k with
      | none => rw [hrec] at h; simp at h
      | some s' =>
        rw [hrec] at h
        simp only [Option.bind_eq_bind, Option.some_bind, Option.some.injEq] at h
        have h3 : hc % 3 < 3 := Nat.mod_lt _ (by norm_num)
        rw [h0, show swap3 0 = 0 from rfl] at hop
        by_cases h1 : hc % 3 = 0
        · have hia := ih (m / 3) (hc / 3) s' hrec (by omega) (by omega)
          intro heq
          apply hia
          omega
        · intro heq
          omega
    · rw [if_neg h0] at h
      by_cases h1 : hc % 3 ≠ 0
      · rw [if_pos h1] at h
        simp at h
      · rw [if_neg h1] at h
        cases hrec : mcomplementO (m / 3) (hc / 3) k with
        | none => rw [hrec] at h; simp at h
        | some s' =>
          rw [hrec] at h
          simp only [Option.bind_eq_bind, Option.some_bind, Option.some.injEq] at h
          have hia := ih (m / 3) (hc / 3) s' hrec (by omega) (by omega)
          have h2 := swap3_lt (m % 3)
          intro heq
          apply hia
          omega

theorem mcomplement_some (m hc k : Nat) (h : mcomplement m hc k ≠ 0) :
    mcomplementO m hc k = some (mcomplement m hc k) := by
  unfold mcomplement at h ⊢
  cases hO : mcomplementO m hc k with
  | none => rw [hO] at h; simp at h
  | some s => simp

theorem findJAux_spec (m k : Nat) (full : List Nat) :
    ∀ rest j0 j t, findJAux m k full j0 rest = some (j, t) →
      ∃ h, h ∈ rest ∧ t = mcomplement m h k ∧ t ≠ 0 ∧
        isfree t full = true := by
  intro rest
  induction rest with
  | nil =>
    intro j0 j t h
    simp [findJAux] at h
  | cons hd tl ih =>
    intro j0 j t h
    simp only [findJAux] at h
    by_cases hcond : mcomplement m hd k ≠ 0 ∧ isfree (mcomplement m hd k) full = true
    · rw [if_pos hcond] at h
      simp only [Option.some.injEq, Prod.mk.injEq] at h
      refine ⟨hd, List.mem_cons_self _ _, h.2.symm, ?_, ?_⟩
      · rw [← h.2]; exact hcond.1
      · rw [← h.2]; exact hcond.2
    · rw [if_neg hcond] at h
      obtain ⟨hh, hmem, hrest⟩ := ih (j0 + 1) j t h
      exact ⟨hh, List.mem_cons_of_mem _ hmem, hrest⟩

theorem pairwise_set (R : Nat → Nat → Prop) (t : Nat) :
    ∀ (j : Nat) (hc : List Nat), hc.Pairwise R →
      (∀ x ∈ hc, R t x ∧ R x t) → (hc.set j t).Pairwise R := by
  intro j hc
  induction hc generalizing j with
  | nil =>
    intro _ _
    simp
  | cons hd tl ih =>
    intro hp hR
    obtain ⟨h1, h2⟩ := List.pairwise_cons.mp hp
    cases j with
    | zero =>
      simp only [List.set]
      rw [List.pairwise_cons]
      exact ⟨fun x hx => (hR x (List.mem_cons_of_mem _ hx)).1, h2⟩
    | succ n =>
      simp only [List.set]
      rw [List.pairwise_cons]
      constructor
      · intro x hx
        rcases List.mem_or_eq_of_mem_set hx with hmem | heq
        · exact h1 x hmem
        · rw [heq]
          exact (hR hd (List.mem_cons_self _ _)).2
      · exact ih n h2 (fun x hx => hR x (List.mem_cons_of_mem _ hx))

theorem goodTable_perm (k : Nat) (T T' : List Nat) (hperm : T.Perm T')
    (hg : goodTable k T) : goodTable k T' := by
  refine ⟨fun x hx => hg.1 x (hperm.mem_iff.mpr hx), ?_⟩
  exact (List.Perm.pairwise_iff (fun h => distinctFree_symm h) hperm).mp hg.2

theorem goodTable_mono (k k' : Nat) (hk : k ≤ k') (T : List Nat)
    (hg : goodTable k T) : goodTable k' T := by
  refine ⟨?_, hg.2⟩
  intro x hx
  have h1 := hg.1 x hx
  have hpow := Nat.pow_le_pow_right (show 1 ≤ 3 by norm_num) hk
  omega

/-! ## The saturated construction preserves the uniqueness invariant -/

theorem getbase_good : ∀ k T, getbase k = some T → goodTable k T := by
  intro k
  induction k using Nat.strong_induction_on with
  | _ k ih =>
    match k with
    | 0 => intro T h; simp [getbase] at h
    | 1 => intro T h; simp [getbase] at h
    | 2 =>
      intro T h
      simp only [getbase, Option.some.injEq] at h
      rw [← h]
      refine ⟨by decide, ?_⟩
      refine List.Pairwise.cons ?_
        (List.Pairwise.cons ?_ (List.Pairwise.cons ?_ List.Pairwise.nil))
      · intro y hy
        rcases List.mem_cons.mp hy with rfl | hy
        · exact ⟨by decide, by decide, by decide⟩
        · rcases List.mem_cons.mp hy with rfl | hy
          · exact ⟨by decide, by decide, by decide⟩
          · simp at hy
      · intro y hy
        rcases List.mem_cons.mp hy with rfl | hy
        · exact ⟨by decide, by decide, by decide⟩
        · simp at hy
      · intro y hy
        simp at hy
    | k + 3 =>
      intro T h
      simp only [getbase] at h
      cases hb : getbase (k + 2) with
      | none => rw [hb] at h; simp at h
      | some b =>
        rw [hb] at h
        simp only [Option.bind_eq_bind, Option.some_bind] at h
        cases hm : missing b (ipow 3 (k + 2) - 1) with
        | none => rw [hm] at h; simp at h
        | some m =>
          rw [hm] at h
          simp only [Option.some_bind, Option.some.injEq] at h
          have hP : ipow 3 (k + 2) = 3 ^ (k + 2) := ipow_three _
          rw [hP] at h
          have hgb : goodTable (k + 2) b := ih (k + 2) (by omega) b hb
          have hPpos : 0 < 3 ^ (k + 2) := by positivity
          obtain ⟨hm1, hm2, hm3, _⟩ :=
            missingAux_spec b (ipow 3 (k + 2) - 1) 1 m hm
          have hmP : m < 3 ^ (k + 2) := by
            rw [hP] at hm2
            omega
          have hfree : ∀ x ∈ b, m ≠ x ∧ m ≠ op x := (isfree_iff m b).mp hm3
          have hop_lt : ∀ x, x < 3 ^ (k + 2) → op x < 3 ^ (k + 2) :=
            op_lt_pow (k + 2)
          have hopm1 : 1 ≤ op m := op_pos m hm1
          have hopm2 : op m < 3 ^ (k + 2) := hop_lt m hmP
          have hop1 : ∀ x, x < 3 ^ (k + 2) →
              op (x + 3 ^ (k + 2)) = op x + 2 * 3 ^ (k + 2) :=
            op_shift1 (k + 2)
          have hop2 : ∀ x, x < 3 ^ (k + 2) →
              op (x + 2 * 3 ^ (k + 2)) = op x + 3 ^ (k + 2) :=
            op_shift2 (k + 2)
          have hop2P : op (2 * 3 ^ (k + 2)) = 3 ^ (k + 2) := op_two_pow (k + 2)
          have hopcm : op (3 ^ (k + 2) + op m) = m + 2 * 3 ^ (k + 2) := by
            have h5 := op_shift1 (k + 2) (op m) hopm2
            rw [op_op] at h5
            rw [Nat.add_comm]
            exact h5
          have hne_opb : ∀ x ∈ b, ∀ y ∈ b, x ≠ op y := by
            intro x hx y hy
            by_cases hxy : x = y
            · subst hxy
              exact fun heq => op_ne_self x ((hgb.1 x hx).1) heq.symm
            · exact (List.Pairwise.forall distinctFree_symm hgb.2 hx hy hxy).2.1
          have hL : goodTable (k + 3)
              (b ++ b.map (fun x => x + 3 ^ (k + 2))
                ++ b.map (fun x => x + 2 * 3 ^ (k + 2))
                ++ [2 * 3 ^ (k + 2), m, 3 ^ (k + 2) + op m]) := by
            have hP3 : (3 : Nat) ^ (k + 3) = 3 * 3 ^ (k + 2) := by
              rw [pow_succ]; ring
            constructor
            · intro x hx
              simp only [List.mem_append, List.mem_map, List.mem_cons,
                List.not_mem_nil, or_false] at hx
              rcases hx with ((hx | ⟨y, hy, rfl⟩) | ⟨y, hy, rfl⟩) | (rfl | rfl | rfl)
              · have := hgb.1 x hx
                omega
              · have := hgb.1 y hy
                omega
              · have := hgb.1 y hy
                omega
              · omega
              · omega
              · omega
            · rw [List.pairwise_append]
              refine ⟨?_, ?_, ?_⟩
              · rw [List.pairwise_append]
                refine ⟨?_, ?_, ?_⟩
                · rw [List.pairwise_append]
                  refine ⟨hgb.2, ?_, ?_⟩
                  · rw [List.pairwise_map]
                    refine List.Pairwise.imp_of_mem ?_ hgb.2
                    intro a z ha hz hr
                    obtain ⟨hr1, hr2, hr3⟩ := hr
                    obtain ⟨ha1, ha2⟩ := hgb.1 a ha
                    obtain ⟨hz1, hz2⟩ := hgb.1 z hz
                    refine ⟨by omega, ?_, ?_⟩
                    · rw [hop1 z hz2]
                      omega
                    · rw [hop1 a ha2]
                      omega
                  · intro a ha z hz
                    obtain ⟨y, hy, rfl⟩ := List.mem_map.mp hz
                    obtain ⟨ha1, ha2⟩ := hgb.1 a ha
                    obtain ⟨hy1, hy2⟩ := hgb.1 y hy
                    have hoa2 := hop_lt a ha2
                    refine ⟨by omega, ?_, by omega⟩
                    rw [hop1 y hy2]
                    omega
                · rw [List.pairwise_map]
                  refine List.Pairwise.imp_of_mem ?_ hgb.2
                  intro a z ha hz hr
                  obtain ⟨hr1, hr2, hr3⟩ := hr
                  obtain ⟨ha1, ha2⟩ := hgb.1 a ha
                  obtain ⟨hz1, hz2⟩ := hgb.1 z hz
                  have hoa2 := hop_lt a ha2
                  have hoz2 := hop_lt z hz2
                  refine ⟨by omega, ?_, ?_⟩
                  · rw [hop2 z hz2]
                    omega
                  · rw [hop2 a ha2]
                    omega
                · intro a ha z hz
                  obtain ⟨y, hy, rfl⟩ := List.mem_map.mp hz
                  obtain ⟨hy1, hy2⟩ := hgb.1 y hy
                  have hoy2 := hop_lt y hy2
                  rcases List.mem_append.mp ha with ha | ha
                  · obtain ⟨ha1, ha2⟩ := hgb.1 a ha
                    have hoa2 := hop_lt a ha2
                    refine ⟨by omega, ?_, by omega⟩
                    rw [hop2 y hy2]
                    omega
                  · obtain ⟨x, hx, rfl⟩ := List.mem_map.mp ha
                    obtain ⟨hx1, hx2⟩ := hgb.1 x hx
                    have hox2 := hop_lt x hx2
                    refine ⟨by omega, ?_, ?_⟩
                    · rw [hop2 y hy2]
                      have hxy := hne_opb x hx y hy
                      omega
                    · rw [hop1 x hx2]
                      have hyx := hne_opb y hy x hx
                      omega
              · refine List.Pairwise.cons ?_
                  (List.Pairwise.cons ?_ (List.Pairwise.cons ?_ List.Pairwise.nil))
                · intro z hz
                  rcases List.mem_cons.mp hz with rfl | hz
                  · exact ⟨by omega, by omega, by rw [hop2P]; omega⟩
                  · rcases List.mem_cons.mp hz with rfl | hz
                    · exact ⟨by omega, by rw [hopcm]; omega, by rw [hop2P]; omega⟩
                    · simp at hz
                · intro z hz
                  rcases List.mem_cons.mp hz with rfl | hz
                  · exact ⟨by omega, by rw [hopcm]; omega, by omega⟩
                  · simp at hz
                · intro z hz
                  simp at hz
              · intro a ha z hz
                have hz3 : z = 2 * 3 ^ (k + 2) ∨ z = m ∨ z = 3 ^ (k + 2) + op m := by
                  simpa using hz
                rcases List.mem_append.mp ha with ha | ha
                · rcases List.mem_append.mp ha with ha | ha
                  · obtain ⟨ha1, ha2⟩ := hgb.1 a ha
                    have hoa2 := hop_lt a ha2
                    have hoa1 := op_pos a ha1
                    rcases hz3 with rfl | rfl | rfl
                    · exact ⟨by omega, by rw [hop2P]; omega, by omega⟩
                    · have hfa := hfree a ha
                      refine ⟨fun heq => hfa.1 heq.symm, ?_, hfa.2⟩
                      intro heq
                      apply hfa.2
                      rw [heq, op_op]
                    · exact ⟨by omega, by rw [hopcm]; omega, by omega⟩
                  · obtain ⟨x, hx, rfl⟩ := List.mem_map.mp ha
                    obtain ⟨hx1, hx2⟩ := hgb.1 x hx
                    have hox2 := hop_lt x hx2
                    have hox1 := op_pos x hx1
                    rcases hz3 with rfl | rfl | rfl
                    · refine ⟨by omega, by rw [hop2P]; omega, ?_⟩
                      rw [hop1 x hx2]
                      omega
                    · refine ⟨by omega, by omega, ?_⟩
                      rw [hop1 x hx2]
                      omega
                    · refine ⟨?_, by rw [hopcm]; omega, by rw [hop1 x hx2]; omega⟩
                      intro heq
                      have hxm : x = op m := by omega
                      apply (hfree x hx).2
                      rw [hxm, op_op]
                · obtain ⟨x, hx, rfl⟩ := List.mem_map.mp ha
                  obtain ⟨hx1, hx2⟩ := hgb.1 x hx
                  have hox2 := hop_lt x hx2
                  have hox1 := op_pos x hx1
                  rcases hz3 with rfl | rfl | rfl
                  · refine ⟨by omega, by rw [hop2P]; omega, ?_⟩
                    rw [hop2 x hx2]
                    omega
                  · refine ⟨by omega, by omega, ?_⟩
                    rw [hop2 x hx2]
                    omega
                  · refine ⟨by omega, ?_, ?_⟩
                    · rw [hopcm]
                      have hmx := (hfree x hx).1
                      omega
                    · rw [hop2 x hx2]
                      intro heq
                      have heq2 : op m = op x := by omega
                      exact (hfree x hx).1 (op_inj m x heq2)
          have hperm : (b ++ b.map (fun x => x + 3 ^ (k + 2))
              ++ b.map (fun x => x + 2 * 3 ^ (k + 2))
              ++ [2 * 3 ^ (k + 2), m, 3 ^ (k + 2) + op m]).Perm T := by
            rw [← h]
            exact (List.mergeSort_perm _ _).symm
          exact goodTable_perm _ _ _ hperm hL

/-! ## The incremental `add` step preserves the uniqueness invariant -/

theorem addScan_good (k : Nat) (hc : List Nat) (hg : goodTable k hc) :
    ∀ ms, (∀ m ∈ ms, 1 ≤ m ∧ m < 3 ^ k) →
      ∀ T', addScan hc k ms = some T' → goodTable k T' := by
  intro ms
  induction ms with
  | nil =>
    intro _ T' h
    simp [addScan] at h
  | cons m ms ih =>
    intro hb T' h
    simp only [addScan] at h
    by_cases hf : isfree m hc = true
    · rw [if_pos hf] at h
      cases hj : findJAux m k hc 0 hc with
      | none =>
        rw [hj] at h
        dsimp only at h
        exact ih (fun q hq => hb q (List.mem_cons_of_mem _ hq)) T' h
      | some jt =>
        obtain ⟨j, t⟩ := jt
        rw [hj] at h
        dsimp only at h
        simp only [Option.some.injEq] at h
        obtain ⟨hel, hmemel, hteq, htne, htfree⟩ :=
          findJAux_spec m k hc hc 0 j t hj
        have hmb := hb m (List.mem_cons_self _ _)
        have h0 : mcomplement m hel k ≠ 0 := by
          rw [← hteq]
          exact htne
        have htO : mcomplementO m hel k = some (mcomplement m hel k) :=
          mcomplement_some m hel k h0
        rw [← hteq] at htO
        obtain ⟨hel1, hel2⟩ := hg.1 hel hmemel
        have ht_lt : t < 3 ^ k := mcomplementO_lt k m hel t htO
        have ht_ne_m : t ≠ m := mcomplementO_ne k m hel t htO hmb.1
        have ht_ne_opm : t ≠ op m := mcomplementO_ne_op k m hel t htO hel1 hel2
        have ht1 : 1 ≤ t := by omega
        have hfree_m := (isfree_iff m hc).mp hf
        have hfree_t := (isfree_iff t hc).mp htfree
        have hgood : goodTable k (hc.set j t ++ [m]) := by
          constructor
          · intro x hx
            rcases List.mem_append.mp hx with hx | hx
            · rcases List.mem_or_eq_of_mem_set hx with hx | rfl
              · exact hg.1 x hx
              · exact ⟨ht1, ht_lt⟩
            · have hxm : x = m := by simpa using hx
              rw [hxm]
              exact hmb
          · rw [List.pairwise_append]
            refine ⟨?_, List.pairwise_singleton _ _, ?_⟩
            · refine pairwise_set distinctFree t j hc hg.2 ?_
              intro x hx
              have hfx := hfree_t x hx
              exact ⟨⟨hfx.1, hfx.2, fun he => hfx.2 (by rw [he, op_op])⟩,
                ⟨fun he => hfx.1 he.symm, fun he => hfx.2 (by rw [he, op_op]),
                  hfx.2⟩⟩
            · intro a ha z hz
              have hzm : z = m := by simpa using hz
              rcases List.mem_or_eq_of_mem_set ha with ha | rfl
              · have hfa := hfree_m a ha
                rw [hzm]
                exact ⟨fun he => hfa.1 he.symm,
                  fun he => hfa.2 (by rw [he, op_op]), hfa.2⟩
              · rw [hzm]
                exact ⟨ht_ne_m, ht_ne_opm,
                  fun he => ht_ne_opm (by rw [he, op_op])⟩
        have hperm : (hc.set j t ++ [m]).Perm T' := by
          rw [← h]
          exact (List.mergeSort_perm _ _).symm
        exact goodTable_perm _ _ _ hperm hgood
    · rw [if_neg hf] at h
      exact ih (fun q hq => hb q (List.mem_cons_of_mem _ hq)) T' h

theorem add_good (hc : List Nat) (k : Nat) (T' : List Nat)
    (hg : goodTable k hc) (h : add hc k = some T') : goodTable k T' := by
  refine addScan_good k hc hg (List.range' 1 (ipow 3 k - 1)) ?_ T' h
  intro m hm
  rw [List.mem_range'] at hm
  obtain ⟨i, hi, rfl⟩ := hm
  have hP := ipow_three k
  have hpos : 0 < 3 ^ k := by positivity
  omega

theorem produced_good (k : Nat) (T : List Nat) (hp : Produced k T) :
    goodTable k T := by
  induction hp with
  | base kb T hk hgb => exact goodTable_mono kb k hk T (getbase_good kb T hgb)
  | step T T' hpd hadd ih => exact add_good T k T' ih hadd

/-- Claim C2: every code table produced by the static builder — the
saturated `getbase` construction followed by any sequence of incremental
`add` steps — satisfies the uniqueness invariant: for all pairs of
distinct coins `i, j`, `code[i] ≠ code[j]` and
`code[i] ≠ op (code[j])`, where `op` is the base-3 digit-wise 1↔2
swap. -/
theorem claim2_code_uniqueness (k : Nat) (T : List Nat) (hp : Produced k T) :
    ∀ (i j : Nat) (hi : i < T.length) (hj : j < T.length), i ≠ j →
      T.get ⟨i, hi⟩ ≠ T.get ⟨j, hj⟩ ∧
      T.get ⟨i, hi⟩ ≠ op (T.get ⟨j, hj⟩) := by
  intro i j hi hj hij
  have hg := produced_good k T hp
  have hpg := List.pairwise_iff_get.mp hg.2
  rcases Nat.lt_or_ge i j with hlt | hge
  · have hd := hpg ⟨i, hi⟩ ⟨j, hj⟩ (Fin.mk_lt_mk.mpr hlt)
    exact ⟨hd.1, hd.2.1⟩
  · have hlt : j < i := by omega
    have hd := hpg ⟨j, hj⟩ ⟨i, hi⟩ (Fin.mk_lt_mk.mpr hlt)
    exact ⟨fun he => hd.1 he.symm, hd.2.2⟩

/-- Claim C2 witness: in the base table `[1, 8, 3]` for 2 weighings the
first two codes are distinct and `1 ≠ op 8 = 4`. -/
theorem claim2_witness :
    ([1, 8, 3] : List Nat).get ⟨0, by decide⟩ ≠
      ([1, 8, 3] : List Nat).get ⟨1, by decide⟩ ∧
    ([1, 8, 3] : List Nat).get ⟨0, by decide⟩ ≠
      op (([1, 8, 3] : List Nat).get ⟨1, by decide⟩) :=
  claim2_code_uniqueness 2 [1, 8, 3]
    (Produced.base 2 [1, 8, 3] (by decide) rfl) 0 1 (by decide) (by decide)
    (by decide)

/-- Claim C7: in the saturated construction step extending a solution for
`k+2` weighings to one for `k+3`, the builder finds the smallest positive
integer `m` that equals no existing code and no existing code's base-3
complement (every smaller positive value is rejected, so a linear scan
over `1 .. 3^(k+3) - 1` returns the same `m` as the implemented scan over
`1 .. 3^(k+2) - 1`), and appends code `m` and code `3^(k+2) + op m`
before sorting. -/
theorem claim7_missing_step (k : Nat) (T b : List Nat) (m : Nat)
    (hT : getbase (k + 3) = some T)
    (hb : getbase (k + 2) = some b)
    (hm : missing b (ipow 3 (k + 2) - 1) = some m) :
    1 ≤ m ∧ m < ipow 3 (k + 2) ∧ isfree m b = true ∧
    (∀ i, 1 ≤ i → i < m → isfree i b = false) ∧
    missing b (ipow 3 (k + 3) - 1) = some m ∧
    T = ((b ++ b.map (fun x => x + ipow 3 (k + 2))
        ++ b.map (fun x => x + 2 * ipow 3 (k + 2))
        ++ [2 * ipow 3 (k + 2), m, ipow 3 (k + 2) + op m]).mergeSort
          (fun a b => decide (a ≤ b))) ∧
    T.Perm (b ++ b.map (fun x => x + ipow 3 (k + 2))
        ++ b.map (fun x => x + 2 * ipow 3 (k + 2))
        ++ [2 * ipow 3 (k + 2), m, ipow 3 (k + 2) + op m]) := by
  obtain ⟨h1, h2, h3, h4⟩ := missingAux_spec b (ipow 3 (k + 2) - 1) 1 m hm
  have hP2 : ipow 3 (k + 2) = 3 ^ (k + 2) := ipow_three _
  have hP3 : ipow 3 (k + 3) = 3 ^ (k + 3) := ipow_three _
  have hpos : 0 < 3 ^ (k + 2) := by positivity
  have hpow : (3 : Nat) ^ (k + 3) = 3 * 3 ^ (k + 2) := by
    rw [pow_succ]; ring
  have hmlt : m < ipow 3 (k + 2) := by omega
  have hTeq : T = ((b ++ b.map (fun x => x + ipow 3 (k + 2))
      ++ b.map (fun x => x + 2 * ipow 3 (k + 2))
      ++ [2 * ipow 3 (k + 2), m, ipow 3 (k + 2) + op m]).mergeSort
        (fun a b => decide (a ≤ b))) := by
    simp only [getbase] at hT
    rw [hb] at hT
    simp only [Option.bind_eq_bind, Option.some_bind] at hT
    rw [hm] at hT
    simp only [Option.some_bind, Option.some.injEq] at hT
    exact hT.symm
  refine ⟨h1, hmlt, h3, fun i hi1 hi2 => h4 i hi1 hi2, ?_, hTeq, ?_⟩
  · unfold missing
    exact missingAux_of_min b (ipow 3 (k + 3) - 1) 1 m h1 (by omega) h3
      (fun q hq1 hq2 => h4 q hq1 hq2)
  · rw [hTeq]
    exact List.mergeSort_perm _ _

/-- Claim C7 witness: the step from 2 to 3 weighings on the base table
`[1, 8, 3]` finds `m = 5` (with `4` not free), the scan over the larger
range `1 .. 26` also returns `5`, and the new table is a permutation of
the appended lists including the codes `5` and `9 + op 5 = 16`. -/
theorem claim7_witness :
    1 ≤ 5 ∧ (5 : Nat) < ipow 3 2 ∧ isfree 5 [1, 8, 3] = true ∧
    isfree 4 [1, 8, 3] = false ∧
    missing [1, 8, 3] (ipow 3 3 - 1) = some 5 ∧
    (([1, 8, 3] ++ [1, 8, 3].map (fun x => x + ipow 3 2)
        ++ [1, 8, 3].map (fun x => x + 2 * ipow 3 2)
        ++ [2 * ipow 3 2, 5, ipow 3 2 + op 5]).mergeSort
          (fun a b => decide (a ≤ b))).Perm
      ([1, 8, 3] ++ [1, 8, 3].map (fun x => x + ipow 3 2)
        ++ [1, 8, 3].map (fun x => x + 2 * ipow 3 2)
        ++ [2 * ipow 3 2, 5, ipow 3 2 + op 5]) := by
  obtain ⟨c1, c2, c3, c4, c5, c6, c7⟩ :=
    claim7_missing_step 0
      (([1, 8, 3] ++ [1, 8, 3].map (fun x => x + ipow 3 (0 + 2))
        ++ [1, 8, 3].map (fun x => x + 2 * ipow 3 (0 + 2))
        ++ [2 * ipow 3 (0 + 2), 5, ipow 3 (0 + 2) + op 5]).mergeSort
          (fun a b => decide (a ≤ b)))
      [1, 8, 3] 5 (by rfl) (by rfl) (by decide)
  exact ⟨c1, c2, c3, c4 4 (by norm_num) (by norm_num), c5, c7⟩
